import Mathlib

/-!
Verification of the two-pass tree-based Markdown parser prototype
(`src/prototype.rs`).  The parser core is embedded shallowly: text is a
list of bytes (`List Nat`), the tree arena is a list of nodes addressed
by `Nat` indices with a `NIL` sentinel, and every loop of the Rust code
becomes either a well-founded recursion or a fuel-indexed function
returning `Option` (fuel exhaustion is `none`).  The byte-scanner
library (`scanners.rs`) and the tree arena (`tree.rs`) are not part of
the given source; they are modelled from the specification (sections 3.1
and 6).  Everything else is translated directly from `prototype.rs`.
-/

set_option maxRecDepth 10000
set_option linter.unusedVariables false

namespace MD

/-- A text is a sequence of bytes (the Rust code works on `&str` via
`as_bytes`); each byte is a `Nat` below 256. -/
abbrev Bytes := List Nat

/-- Byte of `s` at index `i`, defaulting to 0 out of range (the Rust code
indexes only in bounds on the traces we reason about). -/
def byteAt (s : Bytes) (i : Nat) : Nat := s.getD i 0

/-- Modelled from the spec: character classifier `is_ascii_whitespace`
(space or 0x09..0x0d). -/
def is_ascii_whitespace (c : Nat) : Bool := c == 32 || (9 ≤ c && c ≤ 13)

/-- Modelled from the spec: character classifier `is_ascii_whitespace_no_nl`:
ASCII whitespace that is not a line ending (space, tab, vertical tab,
form feed). -/
def is_ascii_whitespace_no_nl (c : Nat) : Bool :=
  c == 32 || c == 9 || c == 11 || c == 12

/-- Modelled from the spec: character classifier `is_ascii_punctuation`
(the four ASCII punctuation ranges). -/
def is_ascii_punctuation (c : Nat) : Bool :=
  (33 ≤ c && c ≤ 47) || (58 ≤ c && c ≤ 64) || (91 ≤ c && c ≤ 96) ||
    (123 ≤ c && c ≤ 126)

/-- Modelled from the spec: character classifier `is_ascii_alpha`. -/
def is_ascii_alpha (c : Nat) : Bool :=
  (65 ≤ c && c ≤ 90) || (97 ≤ c && c ≤ 122)

/-- Modelled from the spec: character classifier `is_ascii_alphanumeric`. -/
def is_ascii_alphanumeric (c : Nat) : Bool :=
  is_ascii_alpha c || (48 ≤ c && c ≤ 57)

/-- Modelled from the spec: character classifier `is_ascii_letterdigitdash`. -/
def is_ascii_letterdigitdash (c : Nat) : Bool :=
  is_ascii_alphanumeric c || c == 45

/-- Modelled from the spec: `scan_ch_repeat(s, ch)`: length of the leading
run of byte `c`. -/
def scan_ch_repeat (s : Bytes) (c : Nat) : Nat :=
  match s with
  | [] => 0
  | b :: rest => if b = c then 1 + scan_ch_repeat rest c else 0

/-- Modelled from the spec: `scan_whitespace_no_nl(s)`: length of the
leading run of non-newline ASCII whitespace. -/
def scan_whitespace_no_nl (s : Bytes) : Nat :=
  match s with
  | [] => 0
  | b :: rest =>
    if is_ascii_whitespace_no_nl b then 1 + scan_whitespace_no_nl rest else 0

/-- Modelled from the spec: `scan_eol(s) -> (len, is_eol)`: consumes a line
ending (`\n`, `\r`, or `\r\n`); the empty string counts as end of line. -/
def scan_eol (s : Bytes) : Nat × Bool :=
  match s with
  | [] => (0, true)
  | 10 :: _ => (1, true)
  | 13 :: 10 :: _ => (2, true)
  | 13 :: _ => (1, true)
  | _ => (0, false)

/-- Modelled from the spec: `scan_nextline(s)`: bytes up to and including
the first `\n`, or the whole string. -/
def scan_nextline (s : Bytes) : Nat :=
  match s with
  | [] => 0
  | 10 :: _ => 1
  | _ :: rest => 1 + scan_nextline rest

/-- Modelled from the spec: `scan_blank_line(s)`: bytes through the newline
of a line holding only non-newline whitespace, else `none`. -/
def scan_blank_line (s : Bytes) : Option Nat :=
  let i := scan_whitespace_no_nl s
  match scan_eol (s.drop i) with
  | (n, true) => some (i + n)
  | (_, false) => none

/-- Modelled from the spec: `scan_blockquote_start(s)`: consumes `>` plus one
optional following space, returning bytes consumed (0 if no marker). -/
def scan_blockquote_start (s : Bytes) : Nat :=
  match s with
  | 62 :: 32 :: _ => 2
  | 62 :: _ => 1
  | _ => 0

/-- Modelled from the spec: `scan_hrule(s)`: a thematic break is a run of
three or more `*`, `-` or `_` of one kind, blanks allowed in between, up to
the line ending; returns the bytes consumed through the line ending, else 0. -/
def scan_hrule_aux (c : Nat) (s : Bytes) (i n : Nat) : Nat :=
  match s with
  | [] => if 3 ≤ n then i else 0
  | b :: rest =>
    if b = c then scan_hrule_aux c rest (i + 1) (n + 1)
    else if is_ascii_whitespace_no_nl b then scan_hrule_aux c rest (i + 1) n
    else if b = 10 ∨ b = 13 then
      if 3 ≤ n then i + (scan_eol (b :: rest)).1 else 0
    else 0

/-- Modelled from the spec: `scan_hrule(s)` (entry point). -/
def scan_hrule (s : Bytes) : Nat :=
  match s with
  | b :: _ =>
    if b = 42 ∨ b = 45 ∨ b = 95 then scan_hrule_aux b s 0 0 else 0
  | [] => 0

/-- Modelled from the spec: `scan_atx_heading(s) -> Option (prefix_len,
level)`: a run of 1..6 `#` followed by a space, tab or line ending; the
returned length is the length of the `#` run. -/
def scan_atx_heading (s : Bytes) : Option (Nat × Int) :=
  let n := scan_ch_repeat s 35
  if 1 ≤ n ∧ n ≤ 6 then
    match s.drop n with
    | [] => some (n, (n : Int))
    | b :: _ =>
      if b = 32 ∨ b = 9 ∨ b = 10 ∨ b = 13 then some (n, (n : Int))
      else none
  else none

/-- Modelled from the spec: `scan_setext_heading(s) -> Option (len, level)`:
a run of `=` (level 1) or `-` (level 2), optional trailing blanks, then the
line ending; returns bytes consumed through the line ending. -/
def scan_setext_heading (s : Bytes) : Option (Nat × Int) :=
  match s with
  | b :: _ =>
    if b = 61 ∨ b = 45 then
      let n := scan_ch_repeat s b
      let i := n + scan_whitespace_no_nl (s.drop n)
      match scan_eol (s.drop i) with
      | (m, true) => some (i + m, if b = 61 then 1 else 2)
      | (_, false) => none
    else none
  | [] => none

/-- Modelled from the spec: `scan_code_fence(s) -> (len, fence_char)`: a run
of at least three backticks or tildes. -/
def scan_code_fence (s : Bytes) : Nat × Nat :=
  match s with
  | b :: _ =>
    if b = 96 ∨ b = 126 then
      let n := scan_ch_repeat s b
      if 3 ≤ n then (n, b) else (0, 0)
    else (0, 0)
  | [] => (0, 0)

/-- Modelled from the spec: `scan_closing_code_fence(s, ch, min_len)`: a run
of the same fence character of at least the opening length, optional
trailing blanks, then the line ending; returns bytes consumed through the
line ending. -/
def scan_closing_code_fence (s : Bytes) (ch : Nat) (min_len : Nat) :
    Option Nat :=
  let n := scan_ch_repeat s ch
  if min_len ≤ n then
    let i := n + scan_whitespace_no_nl (s.drop n)
    match scan_eol (s.drop i) with
    | (m, true) => some (i + m)
    | (_, false) => none
  else none

/-- Length of the leading run of ASCII digits (helper for list markers). -/
def scan_ch_repeat_digits (s : Bytes) : Nat :=
  match s with
  | [] => 0
  | b :: rest =>
    if 48 ≤ b ∧ b ≤ 57 then 1 + scan_ch_repeat_digits rest else 0

/-- Numeric value of a digit string (helper for ordered list markers). -/
def natOfDigits (s : Bytes) : Nat :=
  s.foldl (fun acc b => acc * 10 + (b - 48)) 0

/-- Modelled from the spec: `scan_listitem(s)`: bullet (`-`, `+`, `*`) or
ordered (digits then `.` or `)`) list marker followed by whitespace or end
of line.  Returns (bytes, marker byte, ordered start index, indent). -/
def scan_listitem (s : Bytes) : Nat × Nat × Nat × Nat :=
  match s with
  | b :: rest =>
    if b = 45 ∨ b = 43 ∨ b = 42 then
      match rest with
      | [] => (1, b, 0, 2)
      | b2 :: _ =>
        if is_ascii_whitespace b2 then (1, b, 0, 2) else (0, 0, 0, 0)
    else
      let nd := scan_ch_repeat_digits s
      if 1 ≤ nd ∧ nd ≤ 9 then
        match s.drop nd with
        | c :: rest2 =>
          if c = 46 ∨ c = 41 then
            match rest2 with
            | [] => (nd + 1, c, natOfDigits (s.take nd), nd + 2)
            | b2 :: _ =>
              if is_ascii_whitespace b2 then
                (nd + 1, c, natOfDigits (s.take nd), nd + 2)
              else (0, 0, 0, 0)
          else (0, 0, 0, 0)
        | [] => (0, 0, 0, 0)
      else (0, 0, 0, 0)
  | [] => (0, 0, 0, 0)

/-- Lower-case an ASCII byte (helper for tag-name comparison). -/
def lowerByte (c : Nat) : Nat := if 65 ≤ c ∧ c ≤ 90 then c + 32 else c

/-- Length of the leading run of letter/digit/dash bytes (helper). -/
def tagNameLen (s : Bytes) : Nat :=
  match s with
  | [] => 0
  | b :: rest => if is_ascii_letterdigitdash b then 1 + tagNameLen rest else 0

/-- Modelled from the spec: `scan_html_block_tag(s)`: after `<` and an
optional `/`, the run of letter/digit/dash bytes; returns (bytes consumed,
lower-cased tag name). -/
def scan_html_block_tag (s : Bytes) : Nat × Bytes :=
  match s with
  | 60 :: rest =>
    let (i, body) :=
      match rest with
      | 47 :: rest2 => (2, rest2)
      | _ => (1, rest)
    let n := tagNameLen body
    (i + n, (body.take n).map lowerByte)
  | _ => (0, [])

/-- Modelled from the spec: the recognized HTML block tags (type 6); a
representative subset of the CommonMark block-tag list, as byte strings. -/
def htmlBlockTags : List Bytes :=
  [[97, 100, 100, 114, 101, 115, 115],                -- address
   [97, 114, 116, 105, 99, 108, 101],                 -- article
   [97, 115, 105, 100, 101],                          -- aside
   [98, 108, 111, 99, 107, 113, 117, 111, 116, 101],  -- blockquote
   [98, 111, 100, 121],                               -- body
   [100, 105, 118],                                   -- div
   [100, 108], [100, 116], [100, 100],                -- dl dt dd
   [102, 111, 111, 116, 101, 114],                    -- footer
   [102, 111, 114, 109],                              -- form
   [104, 49], [104, 50], [104, 51],                   -- h1 h2 h3
   [104, 52], [104, 53], [104, 54],                   -- h4 h5 h6
   [104, 101, 97, 100],                               -- head
   [104, 101, 97, 100, 101, 114],                     -- header
   [104, 114],                                        -- hr
   [104, 116, 109, 108],                              -- html
   [108, 105],                                        -- li
   [109, 97, 105, 110],                               -- main
   [110, 97, 118],                                    -- nav
   [111, 108],                                        -- ol
   [112],                                             -- p
   [115, 101, 99, 116, 105, 111, 110],                -- section
   [116, 97, 98, 108, 101],                           -- table
   [116, 98, 111, 100, 121], [116, 100],              -- tbody td
   [116, 102, 111, 111, 116], [116, 104],             -- tfoot th
   [116, 104, 101, 97, 100], [116, 114],              -- thead tr
   [117, 108]]                                        -- ul

/-- Modelled from the spec: `is_html_tag(tag)`: membership in the block-tag
list (tag already lower-cased by `scan_html_block_tag`). -/
def is_html_tag (tag : Bytes) : Bool := htmlBlockTags.contains tag

/-- Modelled from the spec: `scan_html_type_7(s)`: a complete open or close
tag spanning the whole line.  Modelled as: `<`, optional `/`, a nonempty tag
name, arbitrary non-`>` bytes, then `>`, optional blanks, line ending;
returns bytes consumed through the `>` if so. -/
def scanToGt (s : Bytes) (i : Nat) : Option Nat :=
  match s with
  | [] => none
  | 62 :: _ => some (i + 1)
  | 10 :: _ => none
  | 13 :: _ => none
  | _ :: rest => scanToGt rest (i + 1)

/-- Modelled from the spec: `scan_html_type_7(s)` (entry point). -/
def scan_html_type_7 (s : Bytes) : Option Nat :=
  match s with
  | 60 :: rest =>
    let body := match rest with | 47 :: r => r | _ => rest
    if 1 ≤ tagNameLen body then scanToGt s 0 else none
  | _ => none

/-!  The `LineStart` helper, modelled from the spec: it tracks bytes scanned
and remaining tab-expansion space across partial consumptions of leading
whitespace.  A tab counts as four spaces. -/

structure LineStart where
  text : Bytes
  ix : Nat
  spaces : Nat
deriving Repr, DecidableEq

/-- Modelled from the spec: `LineStart::new`. -/
def LineStart.new (text : Bytes) : LineStart := ⟨text, 0, 0⟩

/-- Modelled from the spec: consume up to `n` columns of leading space
(spaces and tab expansions), returning the count left unconsumed. -/
def LineStart.scan_space_inner (st : LineStart) (n : Nat) : Nat × LineStart :=
  match n with
  | 0 => (0, st)
  | m + 1 =>
    if 0 < st.spaces then
      LineStart.scan_space_inner { st with spaces := st.spaces - 1 } m
    else
      match st.text.get? st.ix with
      | some 32 => LineStart.scan_space_inner { st with ix := st.ix + 1 } m
      | some 9 =>
        LineStart.scan_space_inner { st with ix := st.ix + 1, spaces := 3 } m
      | _ => (m + 1, st)

/-- Modelled from the spec: `scan_space(n)`: true iff all `n` columns of
space were consumed (partial consumption is kept). -/
def LineStart.scan_space (st : LineStart) (n : Nat) : Bool × LineStart :=
  let (rem, st') := st.scan_space_inner n
  (rem == 0, st')

/-- Modelled from the spec: `scan_space_upto(n)`: consume up to `n` columns
of space, returning how many were consumed. -/
def LineStart.scan_space_upto (st : LineStart) (n : Nat) : Nat × LineStart :=
  let (rem, st') := st.scan_space_inner n
  (n - rem, st')

/-- Helper: count of leading space/tab bytes from an index. -/
def spaceTabRun (s : Bytes) (i : Nat) : Nat :=
  match s with
  | [] => 0
  | b :: rest =>
    match i with
    | j + 1 => spaceTabRun rest j
    | 0 =>
      if b = 32 ∨ b = 9 then 1 + spaceTabRun rest 0 else 0

/-- Modelled from the spec: `scan_all_space()`: consume all leading spaces
and tabs, discarding any pending tab-expansion space. -/
def LineStart.scan_all_space (st : LineStart) : LineStart :=
  { st with ix := st.ix + spaceTabRun st.text st.ix, spaces := 0 }

/-- Modelled from the spec: `remaining_space()`. -/
def LineStart.remaining_space (st : LineStart) : Nat := st.spaces

/-- Modelled from the spec: `bytes_scanned()`. -/
def LineStart.bytes_scanned (st : LineStart) : Nat := st.ix

/-- Modelled from the spec: `is_at_eol()`: the next byte is a line ending or
the text is exhausted. -/
def LineStart.is_at_eol (st : LineStart) : Bool :=
  match st.text.get? st.ix with
  | none => true
  | some b => b == 13 || b == 10

/-- Modelled from the spec: `scan_blockquote_marker`: up to three leading
spaces, then `>`, then one optional space; on failure the state is
restored. -/
def LineStart.scan_blockquote_marker (st : LineStart) : Bool × LineStart :=
  let (_, st1) := st.scan_space_upto 3
  match st1.text.get? st1.ix with
  | some 62 =>
    let st2 := { st1 with ix := st1.ix + 1 }
    let (_, st3) := st2.scan_space 1
    (true, st3)
  | _ => (false, st)

/-- Modelled from the spec: `scan_list_marker -> Option (marker_char,
start_index, indent)`: up to three leading spaces, then a bullet or ordered
marker; the marker must be followed by whitespace or end of line.  Indent is
the marker width plus the following spaces (marker width + 1 when the
marker sits at end of line or is followed by five or more spaces).  On
failure the state is restored. -/
def LineStart.scan_list_marker (st : LineStart) :
    Option (Nat × Nat × Nat) × LineStart :=
  let (_, st1) := st.scan_space_upto 3
  let rest := st1.text.drop st1.ix
  let (w, ch, index) :=
    match rest with
    | b :: _ =>
      if b = 45 ∨ b = 43 ∨ b = 42 then (1, b, 0)
      else
        let nd := scan_ch_repeat_digits rest
        if 1 ≤ nd ∧ nd ≤ 9 then
          match rest.drop nd with
          | c :: _ =>
            if c = 46 ∨ c = 41 then (nd + 1, c, natOfDigits (rest.take nd))
            else (0, 0, 0)
          | [] => (0, 0, 0)
        else (0, 0, 0)
    | [] => (0, 0, 0)
  if w = 0 then (none, st)
  else
    let st2 := { st1 with ix := st1.ix + w }
    if st2.is_at_eol then (some (ch, index, w + 1), st2)
    else
      let (k, st3) := st2.scan_space_upto 5
      if k = 0 then (none, st)
      else if 5 ≤ k then
        -- five or more spaces: indent is marker width + 1, keep one space
        let (_, st4) := st2.scan_space 1
        (some (ch, index, w + 1), st4)
      else (some (ch, index, w + k), st3)

/-!  The tree arena, modelled from the spec (section 3.1): index-addressed
node storage with sibling/child links, a cursor and a container spine.  The
sentinel `NIL` is the Rust `!0usize`. -/

/-- The `NIL` sentinel index (`!0` in the Rust source). -/
def NIL : Nat := 18446744073709551615

/-- `ItemBody` from `prototype.rs`: the closed tagged union of node
bodies.  Strings (info strings, link destination and title, synthesized
text) are byte lists. -/
inductive ItemBody where
  | Paragraph
  | Text
  | SoftBreak
  | HardBreak
  | Inline (n : Nat) (canOpen canClose : Bool)
  | MaybeCode (n : Nat)
  | MaybeHtml
  | MaybeLinkOpen
  | MaybeLinkClose
  | Backslash
  | Emphasis
  | Strong
  | Code
  | InlineHtml
  | Link (dest title : Bytes)
  | Rule
  | Header (level : Int)
  | FencedCodeBlock (info : Bytes)
  | IndentCodeBlock (lastNonblank : Nat)
  | SynthesizeNewLine
  | HtmlBlock (endTag : Option Bytes)
  | Html
  | BlockQuote
  | List (isTight : Bool) (ch : Nat) (idx : Option Nat)
  | ListItem (indent : Nat)
  | SynthesizeText (s : Bytes)
  | BlankLine
deriving Repr, DecidableEq

/-- `Item` from `prototype.rs`: byte range plus body; the Rust field `end`
is named `stop` here (`end` is reserved in Lean). -/
structure Item where
  start : Nat
  stop : Nat
  body : ItemBody
deriving Repr, DecidableEq

/-- `Node` from `tree.rs` (modelled from the spec): item plus first-child
and next-sibling indices. -/
structure Node where
  item : Item
  child : Nat
  next : Nat
deriving Repr, DecidableEq

/-- A placeholder node returned for out-of-range reads. -/
def dummyNode : Node := ⟨⟨0, 0, ItemBody.Text⟩, NIL, NIL⟩

/-- `Tree` from `tree.rs` (modelled from the spec): arena, spine (bottom of
the spine first, as in the Rust `Vec`), and cursor. -/
structure Tree where
  nodes : List Node
  spine : List Nat
  cur : Nat
deriving Repr, DecidableEq

/-- Modelled from the spec: `Tree::new()`. -/
def Tree.new : Tree := ⟨[], [], NIL⟩

/-- Read a node (out-of-range reads give the placeholder; the Rust code
panics there, and the traces we reason about stay in range). -/
def Tree.node (t : Tree) (ix : Nat) : Node := t.nodes.getD ix dummyNode

/-- Replace the node at an index (out of range: no change). -/
def Tree.setNode (t : Tree) (ix : Nat) (n : Node) : Tree :=
  { t with nodes := t.nodes.set ix n }

/-- Set the `next` link of the node at `ix`. -/
def Tree.setNext (t : Tree) (ix : Nat) (nxt : Nat) : Tree :=
  t.setNode ix { t.node ix with next := nxt }

/-- Set the `child` link of the node at `ix`. -/
def Tree.setChild (t : Tree) (ix : Nat) (c : Nat) : Tree :=
  t.setNode ix { t.node ix with child := c }

/-- Set the item of the node at `ix`. -/
def Tree.setItem (t : Tree) (ix : Nat) (it : Item) : Tree :=
  t.setNode ix { t.node ix with item := it }

/-- Set the body of the node at `ix`. -/
def Tree.setBody (t : Tree) (ix : Nat) (b : ItemBody) : Tree :=
  t.setItem ix { (t.node ix).item with body := b }

/-- Set the `stop` offset (Rust `item.end`) of the node at `ix`. -/
def Tree.setStop (t : Tree) (ix : Nat) (e : Nat) : Tree :=
  t.setItem ix { (t.node ix).item with stop := e }

/-- Set the `start` offset of the node at `ix`. -/
def Tree.setStart (t : Tree) (ix : Nat) (st : Nat) : Tree :=
  t.setItem ix { (t.node ix).item with start := st }

/-- Modelled from the spec: `create_node(item)`: allocate a detached node,
returning its index. -/
def Tree.create_node (t : Tree) (it : Item) : Tree × Nat :=
  ({ t with nodes := t.nodes ++ [⟨it, NIL, NIL⟩] }, t.nodes.length)

/-- Modelled from the spec: `append(item)`: create a new node as the next
sibling of `cur` (or as the first child of the innermost spine node when
`cur == NIL`); advance `cur` to it. -/
def Tree.append (t : Tree) (it : Item) : Tree :=
  let (t1, ix) := t.create_node it
  let t2 :=
    if t.cur ≠ NIL then t1.setNext t.cur ix
    else
      match t.spine.getLast? with
      | some parent => t1.setChild parent ix
      | none => t1
  { t2 with cur := ix }

/-- Modelled from the spec: `push()`: descend, pushing `cur` onto the spine
and resetting `cur` to `NIL`. -/
def Tree.push (t : Tree) : Tree :=
  { t with spine := t.spine ++ [t.cur], cur := NIL }

/-- Modelled from the spec: `pop()`: ascend, restoring `cur` from the top of
the spine. -/
def Tree.pop (t : Tree) : Tree :=
  { t with spine := t.spine.dropLast, cur := t.spine.getLastD NIL }

/-- Modelled from the spec: `peek_up()`: innermost open container. -/
def Tree.peek_up (t : Tree) : Option Nat := t.spine.getLast?

/-- Modelled from the spec: `peek_grandparent()`: second-from-top spine
entry. -/
def Tree.peek_grandparent (t : Tree) : Option Nat :=
  t.spine.dropLast.getLast?

/-- `Tree::append_text` from `prototype.rs`: append a `Text` item when the
range is nonempty. -/
def Tree.append_text (t : Tree) (start stop : Nat) : Tree :=
  if stop > start then t.append ⟨start, stop, ItemBody.Text⟩ else t

/-- The items of a tree, in allocation order (link surgery never changes
this list; only `append`/`create_node` extend it and `setItem` rewrites
one entry). -/
def Tree.items (t : Tree) : List Item := t.nodes.map Node.item

/-- `get_html_end_tag` from `prototype.rs`: detect HTML block types 1-5 and
return the text whose appearance ends the block. -/
def startsWithBytes (s pre : Bytes) : Bool :=
  match pre, s with
  | [], _ => true
  | _ :: _, [] => false
  | p :: ps, b :: bs => p == b && startsWithBytes bs ps

/-- Case-insensitive comparison of a text against a lower-case tag, byte by
byte (helper for `get_html_end_tag`'s loop over `beg_tag.as_bytes()[1..]`).
The Rust loop accepts byte `c` or `c - 32` at each position. -/
def matchesTagBody (s : Bytes) (tag : Bytes) : Bool :=
  match tag, s with
  | [], _ => true
  | _ :: _, [] => false
  | c :: cs, b :: bs => (b == c || b == c - 32) && matchesTagBody bs cs

/-- `get_html_end_tag` from `prototype.rs` (types 1 to 5). -/
def get_html_end_tag (text : Bytes) : Option Bytes :=
  let beg1 : Bytes := [60, 115, 99, 114, 105, 112, 116]      -- <script
  let end1 : Bytes := [60, 47, 115, 99, 114, 105, 112, 116, 62]
  let beg2 : Bytes := [60, 112, 114, 101]                    -- <pre
  let end2 : Bytes := [60, 47, 112, 114, 101, 62]
  let beg3 : Bytes := [60, 115, 116, 121, 108, 101]          -- <style
  let end3 : Bytes := [60, 47, 115, 116, 121, 108, 101, 62]
  let try1 : Bytes → Bytes → Option Bytes := fun beg tagEnd =>
    if beg.length ≤ text.length ∧ startsWithBytes text [60] then
      if matchesTagBody (text.drop 1) (beg.drop 1) then
        if text.length = beg.length then some tagEnd
        else
          let b := byteAt text beg.length
          if is_ascii_whitespace b ∨ b = 62 then some tagEnd else none
      else none
    else none
  match try1 beg1 end1 with
  | some e => some e
  | none =>
  match try1 beg2 end2 with
  | some e => some e
  | none =>
  match try1 beg3 end3 with
  | some e => some e
  | none =>
  if startsWithBytes text [60, 33, 45, 45] then some [45, 45, 62]
  else if startsWithBytes text [60, 63] then some [63, 62]
  else if startsWithBytes text [60, 33, 91, 67, 68, 65, 84, 65, 91] then
    some [93, 93, 62]
  else if 2 < text.length ∧ startsWithBytes text [60, 33] then
    let c := byteAt text 2
    if 65 ≤ c ∧ c ≤ 90 then some [62] else none
  else none


/-!  `parse_line` from `prototype.rs`: scan one line of content, appending
text and inline-candidate items; returns the index after the line and the
break item (not appended).  The Rust `while ix < s.len()` loop becomes a
well-founded recursion on `s.length - ix`. -/

/-- The Rust backtrack loop `while i > 0 && is_ascii_whitespace_no_nl
(bytes[i-1]) { i -= 1 }`. -/
def trim_ws (s : Bytes) : Nat → Nat
  | 0 => 0
  | i + 1 => if is_ascii_whitespace_no_nl (byteAt s i) then trim_ws s i else i + 1

/-- The `for i in 0..count` loop of `parse_line`'s emphasis-run arm: append
`count` consecutive `Inline` markers. -/
def Tree.appendInlineRun (t : Tree) (ix count : Nat) (o c : Bool) : Tree :=
  (List.range count).foldl
    (fun tt i => tt.append ⟨ix + i, ix + i + 1, ItemBody.Inline (count - i) o c⟩) t

/-- Loop body of `parse_line` (the parameters `start` and `s` are fixed;
`beginText` is the Rust `begin_text`, `ix` the scan position).  The loop
advances `ix` by at least one byte per iteration, so any fuel above
`s.length - ix` is enough; the fuel-out value is never reached from
`parse_line`. -/
def parse_line_go (s : Bytes) (start : Nat) :
    Nat → Tree → Nat → Nat → Tree × Nat × Option Item
  | 0, t, _, ix => (t, ix, none)
  | fuel + 1, t, beginText, ix =>
  if ix < s.length then
    let b := byteAt s ix
    if b = 10 ∨ b = 13 then
      if beginText + 1 ≤ ix ∧ byteAt s (ix - 1) = 92 then
        let i := ix - 1
        let t1 := t.append_text beginText i
        let ix2 := ix + (scan_eol (s.drop ix)).1
        (t1, ix2, some ⟨i, ix2, ItemBody.HardBreak⟩)
      else if beginText + 2 ≤ ix ∧ is_ascii_whitespace_no_nl (byteAt s (ix - 1))
          ∧ is_ascii_whitespace_no_nl (byteAt s (ix - 2)) then
        let i := trim_ws s (ix - 2)
        let t1 := t.append_text beginText i
        let ix2 := ix + (scan_eol (s.drop ix)).1
        (t1, ix2, some ⟨i, ix2, ItemBody.HardBreak⟩)
      else
        let t1 := t.append_text beginText ix
        let ix2 := ix + (scan_eol (s.drop ix)).1
        (t1, ix2, some ⟨ix, ix2, ItemBody.SoftBreak⟩)
    else if b = 92 ∧ ix + 1 < s.length ∧ is_ascii_punctuation (byteAt s (ix + 1)) then
      let t1 := (t.append_text beginText ix).append ⟨ix, ix + 1, ItemBody.Backslash⟩
      parse_line_go s start fuel t1 (ix + 1) (ix + 2)
    else if b = 42 ∨ b = 95 then
      let count := 1 + scan_ch_repeat (s.drop (ix + 1)) b
      let can_open := decide (ix + count < s.length) &&
        !is_ascii_whitespace (byteAt s (ix + count))
      let can_close := decide (start < ix) &&
        !is_ascii_whitespace (byteAt s (ix - 1))
      let t1 := t.append_text beginText ix
      let t2 := t1.appendInlineRun ix count can_open can_close
      parse_line_go s start fuel t2 (ix + count) (ix + count)
    else if b = 96 then
      let count := 1 + scan_ch_repeat (s.drop (ix + 1)) 96
      let t1 := (t.append_text beginText ix).append ⟨ix, ix + count, ItemBody.MaybeCode count⟩
      parse_line_go s start fuel t1 (ix + count) (ix + count)
    else if b = 60 then
      let t1 := (t.append_text beginText ix).append ⟨ix, ix + 1, ItemBody.MaybeHtml⟩
      parse_line_go s start fuel t1 (ix + 1) (ix + 1)
    else if b = 91 then
      let t1 := (t.append_text beginText ix).append ⟨ix, ix + 1, ItemBody.MaybeLinkOpen⟩
      parse_line_go s start fuel t1 (ix + 1) (ix + 1)
    else if b = 93 then
      let t1 := (t.append_text beginText ix).append ⟨ix, ix + 1, ItemBody.MaybeLinkClose⟩
      parse_line_go s start fuel t1 (ix + 1) (ix + 1)
    else
      parse_line_go s start fuel t beginText (ix + 1)
  else
    (t.append_text beginText ix, ix, none)

/-- `parse_line` from `prototype.rs` (entry point). -/
def parse_line (t : Tree) (s : Bytes) (ix : Nat) : Tree × Nat × Option Item :=
  parse_line_go s ix (s.length + 1) t ix ix

/-- `scan_paragraph_interrupt` from `prototype.rs`. -/
def scan_paragraph_interrupt (s : Bytes) : Bool :=
  (scan_eol s).2 ||
  decide (0 < scan_hrule s) ||
  (scan_atx_heading s).isSome ||
  decide (0 < (scan_code_fence s).1) ||
  (get_html_end_tag s).isSome ||
  decide (0 < scan_blockquote_start s) ||
  decide (0 < (scan_listitem s).1) ||
  is_html_tag (scan_html_block_tag s).2

/-- Substring containment over byte lists (for the Rust
`str::contains(html_end_tag)`). -/
def containsBytes (hay needle : Bytes) : Bool :=
  match hay with
  | [] => needle.isEmpty
  | _ :: rest => startsWithBytes hay needle || containsBytes rest needle

/-!  The first-pass block builder (`FirstPass` in `prototype.rs`).  Every
Rust loop takes a fuel argument and returns `none` when the fuel runs out,
so a diverging loop is the function that is `none` at every fuel.  The
`links` map of the Rust struct is created but never filled nor read in the
source, so it is omitted here. -/

structure FirstPass where
  text : Bytes
  tree : Tree
  last_line_blank : Bool
deriving Repr, DecidableEq

/-- `FirstPass::new`. -/
def FirstPass.new (text : Bytes) : FirstPass := ⟨text, Tree.new, false⟩

/-- Inner loop of `surgerize_tight_list`: `while tree.nodes[lastborn].next
!= NIL`. -/
def findLastborn (t : Tree) : Nat → Nat → Option Nat
  | 0, _ => none
  | fuel + 1, ix =>
    if (t.node ix).next = NIL then some ix else findLastborn t fuel (t.node ix).next

/-- Middle loop of `surgerize_tight_list`: walk one list item's children,
splicing each `Paragraph` child's own children inline. -/
def surgerizeChildren (fuel0 : Nat) (t : Tree) : Nat → Nat → Nat → Option Tree
  | 0, _, _ => none
  | fuel + 1, child, nodeToRepoint =>
    if child = NIL then some t
    else
      match (t.node child).item.body with
      | ItemBody.Paragraph =>
        let fc := (t.node child).child
        let t1 := if nodeToRepoint ≠ NIL then t.setNext nodeToRepoint fc else t
        match findLastborn t1 fuel0 fc with
        | none => none
        | some lastborn =>
          let t2 := t1.setNext lastborn (t1.node child).next
          surgerizeChildren fuel0 t2 fuel (t2.node child).next lastborn
      | _ =>
        let t2 := t.setNext child (t.node child).next
        surgerizeChildren fuel0 t2 fuel (t2.node child).next child

/-- Outer loop of `surgerize_tight_list`: walk the list's items. -/
def surgerizeItems (fuel0 : Nat) : Nat → Tree → Nat → Option Tree
  | 0, _, _ => none
  | fuel + 1, t, listitem =>
    if listitem = NIL then some t
    else
      match (t.node listitem).item.body with
      | ItemBody.ListItem _ =>
        let firstborn := (t.node listitem).child
        if firstborn ≠ NIL then
          let t1 :=
            match (t.node firstborn).item.body with
            | ItemBody.Paragraph => t.setChild listitem (t.node firstborn).child
            | _ => t
          match surgerizeChildren fuel0 t1 fuel0 firstborn NIL with
          | none => none
          | some t2 => surgerizeItems fuel0 fuel t2 (t2.node listitem).next
        else surgerizeItems fuel0 fuel t (t.node listitem).next
      | _ => surgerizeItems fuel0 fuel t (t.node listitem).next

/-- `surgerize_tight_list` from `prototype.rs` (`tree.cur` points at the
list node). -/
def surgerize_tight_list (fuel : Nat) (t : Tree) : Option Tree :=
  surgerizeItems fuel fuel t (t.node t.cur).child

/-- `FirstPass::pop`: pop a container, setting its `end`; a popped tight
list gets the tight-list surgery. -/
def FirstPass.pop (fuel : Nat) (fp : FirstPass) (ix : Nat) : Option FirstPass :=
  let t1 := fp.tree.pop
  let t2 := t1.setStop t1.cur ix
  match (t2.node t2.cur).item.body with
  | ItemBody.List true _ _ =>
    match surgerize_tight_list fuel t2 with
    | none => none
    | some t3 => some { fp with tree := t3 }
  | _ => some { fp with tree := t2 }

/-- `FirstPass::finish_list`: close an open list and transfer a pending
blank line into looseness of the grandparent list. -/
def FirstPass.finish_list (fuel : Nat) (fp : FirstPass) (ix : Nat) :
    Option FirstPass :=
  let step1 : Option FirstPass :=
    match fp.tree.peek_up with
    | some node_ix =>
      match (fp.tree.node node_ix).item.body with
      | ItemBody.List _ _ _ => fp.pop fuel ix
      | _ => some fp
    | none => some fp
  match step1 with
  | none => none
  | some fp1 =>
    if fp1.last_line_blank then
      match fp1.tree.peek_grandparent with
      | some node_ix =>
        match (fp1.tree.node node_ix).item.body with
        | ItemBody.List _ ch idx =>
          let t := fp1.tree.setBody node_ix (ItemBody.List false ch idx)
          some { fp1 with tree := t, last_line_blank := false }
        | _ => some { fp1 with last_line_blank := false }
      | none => some { fp1 with last_line_blank := false }
    else some fp1

/-- `FirstPass::continue_list`: continue a matching open list or open a new
one. -/
def FirstPass.continue_list (fuel : Nat) (fp : FirstPass) (start : Nat)
    (ch : Nat) (index : Option Nat) : Option FirstPass :=
  let openNew : FirstPass → Option FirstPass := fun fp2 =>
    let t := (fp2.tree.append ⟨start, 0, ItemBody.List true ch index⟩).push
    some { fp2 with tree := t, last_line_blank := false }
  match fp.tree.peek_up with
  | some node_ix =>
    match (fp.tree.node node_ix).item.body with
    | ItemBody.List isTight existing_ch idx =>
      if existing_ch = ch then
        if fp.last_line_blank then
          let t := fp.tree.setBody node_ix (ItemBody.List false existing_ch idx)
          some { fp with tree := t, last_line_blank := false }
        else some fp
      else
        match fp.finish_list fuel start with
        | none => none
        | some fp1 => openNew fp1
    | _ =>
      match fp.finish_list fuel start with
      | none => none
      | some fp1 => openNew fp1
  | none => openNew fp

/-- `FirstPass::scan_containers` (loop over the spine; the `panic!` arm of
the Rust code cannot be reached on the traces we reason about and is
modelled as stopping the scan). -/
def scan_containers_go (t : Tree) (spine : List Nat) (i : Nat)
    (ls : LineStart) : Nat × LineStart :=
  match spine with
  | [] => (i, ls)
  | node_ix :: rest =>
    match (t.node node_ix).item.body with
    | ItemBody.BlockQuote =>
      let (ok, ls1) := ls.scan_blockquote_marker
      if ok then scan_containers_go t rest (i + 1) ls1 else (i, ls1)
    | ItemBody.List _ _ _ => scan_containers_go t rest (i + 1) ls
    | ItemBody.ListItem indent =>
      let (ok, ls1) := ls.scan_space indent
      if ok then scan_containers_go t rest (i + 1) ls1
      else if ls1.is_at_eol then scan_containers_go t rest (i + 1) ls1
      else (i, ls1)
    | ItemBody.Paragraph => scan_containers_go t rest (i + 1) ls
    | ItemBody.IndentCodeBlock _ => scan_containers_go t rest (i + 1) ls
    | ItemBody.FencedCodeBlock _ => scan_containers_go t rest (i + 1) ls
    | ItemBody.HtmlBlock _ => scan_containers_go t rest (i + 1) ls
    | _ => (i, ls)

/-- `FirstPass::scan_containers` (entry point). -/
def FirstPass.scan_containers (fp : FirstPass) (ls : LineStart) :
    Nat × LineStart :=
  scan_containers_go fp.tree fp.tree.spine 0 ls

/-- `FirstPass::append_code_text`: optional preserved-indent synthesized
text, then the line with CRLF normalized to LF by splitting around the
`\r`.  Note the unguarded two-byte lookback `self.text.as_bytes()[end - 2]`. -/
def FirstPass.append_code_text (fp : FirstPass) (remaining_space start stop : Nat) :
    FirstPass :=
  let t0 :=
    if 0 < remaining_space then
      fp.tree.append ⟨start, start, ItemBody.SynthesizeText (List.replicate remaining_space 32)⟩
    else fp.tree
  let t1 :=
    if byteAt fp.text (stop - 2) = 13 then
      (t0.append_text start (stop - 2)).append_text (stop - 1) stop
    else t0.append_text start stop
  { fp with tree := t1 }

/-- `FirstPass::append_html_line`: like `append_code_text` but emitting
`Html` items (and without the empty-range suppression of `append_text`). -/
def FirstPass.append_html_line (fp : FirstPass) (remaining_space start stop : Nat) :
    FirstPass :=
  let t0 :=
    if 0 < remaining_space then
      fp.tree.append ⟨start, start, ItemBody.SynthesizeText (List.replicate remaining_space 32)⟩
    else fp.tree
  let t1 :=
    if byteAt fp.text (stop - 2) = 13 then
      (t0.append ⟨start, stop - 2, ItemBody.Html⟩).append ⟨stop - 1, stop, ItemBody.Html⟩
    else t0.append ⟨start, stop, ItemBody.Html⟩
  { fp with tree := t1 }


/-- The trailing-whitespace trim of the fenced-code info string:
`while info_end > info_start && is_ascii_whitespace(bytes[info_end-1])`. -/
def trim_trailing_ws (s : Bytes) (lo : Nat) (hi : Nat) : Nat :=
  match hi with
  | 0 => 0
  | h + 1 =>
    if lo < h + 1 ∧ is_ascii_whitespace (byteAt s h) then trim_trailing_ws s lo h
    else h + 1

/-- Loop of `FirstPass::parse_fenced_code_block`: consume content lines
until the containers fail to match or a closing fence appears.  This is the
loop with no end-of-input exit. -/
def FirstPass.fenced_loop (indent fence_ch n_fence_char : Nat) :
    Nat → FirstPass → Nat → Option (Nat × FirstPass)
  | 0, _, _ => none
  | fuel + 1, fp, ix =>
    let ls := LineStart.new (fp.text.drop ix)
    let (n_containers, ls1) := fp.scan_containers ls
    if n_containers < fp.tree.spine.length then some (ix, fp)
    else
      let (_, ls2) := ls1.scan_space indent
      let (ok4, closeLs) := ls2.scan_space 4
      let closeResult : Option Nat :=
        if !ok4 then
          let close_ix := ix + closeLs.bytes_scanned
          match scan_closing_code_fence (fp.text.drop close_ix) fence_ch n_fence_char with
          | some n => some (close_ix + n)
          | none => none
        else none
      match closeResult with
      | some newIx => some (newIx, fp)
      | none =>
        let remaining_space := ls2.remaining_space
        let ix1 := ix + ls2.bytes_scanned
        let next_ix := ix1 + scan_nextline (fp.text.drop ix1)
        let fp1 := fp.append_code_text remaining_space ix1 next_ix
        FirstPass.fenced_loop indent fence_ch n_fence_char fuel fp1 next_ix

/-- `FirstPass::parse_fenced_code_block`. -/
def FirstPass.parse_fenced_code_block (fuel : Nat) (fp : FirstPass)
    (start_ix indent fence_ch n_fence_char : Nat) : Option (Nat × FirstPass) :=
  let info_start0 := start_ix + n_fence_char
  let info_start := info_start0 + scan_whitespace_no_nl (fp.text.drop info_start0)
  let info_end0 := info_start + scan_nextline (fp.text.drop info_start)
  let info_end := trim_trailing_ws fp.text info_start info_end0
  let info_string := (fp.text.drop info_start).take (info_end - info_start)
  let t := (fp.tree.append ⟨start_ix, 0, ItemBody.FencedCodeBlock info_string⟩).push
  let fp1 := { fp with tree := t }
  let ix := start_ix + scan_nextline (fp.text.drop start_ix)
  match FirstPass.fenced_loop indent fence_ch n_fence_char fuel fp1 ix with
  | none => none
  | some (ix2, fp2) =>
    match fp2.pop fuel ix2 with
    | none => none
    | some fp3 => some (ix2, fp3)

/-- Loop of `FirstPass::parse_indented_code_block`.  State mirrors the Rust
mutables `(ix, remaining_space, last_line_blank, last_nonblank_child,
end_ix)`. -/
def FirstPass.indented_loop :
    Nat → FirstPass → Nat → Nat → Bool → Nat → Nat →
      Option (Nat × Nat × Nat × FirstPass)
  | 0, _, _, _, _, _, _ => none
  | fuel + 1, fp, ix, remaining_space, last_line_blank, last_nonblank_child, end_ix =>
    let line_start_ix := ix
    let ix1 := ix + scan_nextline (fp.text.drop ix)
    let fp1 := fp.append_code_text remaining_space line_start_ix ix1
    let last_nonblank_child1 :=
      if !last_line_blank then fp1.tree.cur else last_nonblank_child
    let end_ix1 := if !last_line_blank then ix1 else end_ix
    let ls := LineStart.new (fp1.text.drop ix1)
    let (n_containers, ls1) := fp1.scan_containers ls
    let (contOk, ls2) :=
      if n_containers < fp1.tree.spine.length then (false, ls1)
      else
        let (ok4, ls2) := ls1.scan_space 4
        if ok4 then (true, ls2)
        else (ls2.is_at_eol, ls2)
    if !contOk then some (ix1, last_nonblank_child1, end_ix1, fp1)
    else
      let next_line_ix := ix1 + ls2.bytes_scanned
      if next_line_ix = fp1.text.length then
        some (ix1, last_nonblank_child1, end_ix1, fp1)
      else
        let last_line_blank2 := (scan_blank_line (fp1.text.drop next_line_ix)).isSome
        FirstPass.indented_loop fuel fp1 next_line_ix ls2.remaining_space
          last_line_blank2 last_nonblank_child1 end_ix1

/-- `FirstPass::parse_indented_code_block`. -/
def FirstPass.parse_indented_code_block (fuel : Nat) (fp : FirstPass)
    (start_ix remaining_space : Nat) : Option (Nat × FirstPass) :=
  let t := (fp.tree.append ⟨start_ix, 0, ItemBody.IndentCodeBlock 0⟩).push
  let fp1 := { fp with tree := t }
  match FirstPass.indented_loop fuel fp1 start_ix remaining_space false NIL 0 with
  | none => none
  | some (ix, last_nonblank_child, end_ix, fp2) =>
    let fp3 := { fp2 with tree := fp2.tree.setNext last_nonblank_child NIL }
    match fp3.pop fuel end_ix with
    | none => none
    | some fp4 => some (ix, fp4)

/-- Loop of `FirstPass::parse_html_block_type_1_to_5`. -/
def FirstPass.html15_loop (html_end_tag : Bytes) :
    Nat → FirstPass → Nat → Nat → Option (Nat × Nat × FirstPass)
  | 0, _, _, _ => none
  | fuel + 1, fp, ix, remaining_space =>
    let line_start_ix := ix
    let ix1 := ix + scan_nextline (fp.text.drop ix)
    let fp1 := fp.append_html_line remaining_space line_start_ix ix1
    let ls := LineStart.new (fp1.text.drop ix1)
    let (n_containers, ls1) := fp1.scan_containers ls
    if n_containers < fp1.tree.spine.length then some (ix1, ix1, fp1)
    else if containsBytes ((fp1.text.drop line_start_ix).take (ix1 - line_start_ix))
        html_end_tag then
      some (ix1, ix1, fp1)
    else
      let next_line_ix := ix1 + ls1.bytes_scanned
      if next_line_ix = fp1.text.length then some (ix1, next_line_ix, fp1)
      else FirstPass.html15_loop html_end_tag fuel fp1 next_line_ix ls1.remaining_space

/-- `FirstPass::parse_html_block_type_1_to_5`. -/
def FirstPass.parse_html_block_type_1_to_5 (fuel : Nat) (fp : FirstPass)
    (start_ix : Nat) (html_end_tag : Bytes) (remaining_space : Nat) :
    Option (Nat × FirstPass) :=
  let t := (fp.tree.append ⟨start_ix, 0, ItemBody.HtmlBlock (some html_end_tag)⟩).push
  let fp1 := { fp with tree := t }
  match FirstPass.html15_loop html_end_tag fuel fp1 start_ix remaining_space with
  | none => none
  | some (ix, end_ix, fp2) =>
    match fp2.pop fuel end_ix with
    | none => none
    | some fp3 => some (ix, fp3)

/-- Loop of `FirstPass::parse_html_block_type_6_or_7`. -/
def FirstPass.html67_loop :
    Nat → FirstPass → Nat → Nat → Option (Nat × Nat × FirstPass)
  | 0, _, _, _ => none
  | fuel + 1, fp, ix, remaining_space =>
    let line_start_ix := ix
    let ix1 := ix + scan_nextline (fp.text.drop ix)
    let fp1 := fp.append_html_line remaining_space line_start_ix ix1
    let ls := LineStart.new (fp1.text.drop ix1)
    let (n_containers, ls1) := fp1.scan_containers ls
    if n_containers < fp1.tree.spine.length ∨ ls1.is_at_eol then
      some (ix1, ix1, fp1)
    else
      let next_line_ix := ix1 + ls1.bytes_scanned
      if next_line_ix = fp1.text.length ∨
          (scan_blank_line (fp1.text.drop next_line_ix)).isSome then
        some (ix1, next_line_ix, fp1)
      else FirstPass.html67_loop fuel fp1 next_line_ix ls1.remaining_space

/-- `FirstPass::parse_html_block_type_6_or_7`. -/
def FirstPass.parse_html_block_type_6_or_7 (fuel : Nat) (fp : FirstPass)
    (start_ix remaining_space : Nat) : Option (Nat × FirstPass) :=
  let t := (fp.tree.append ⟨start_ix, 0, ItemBody.HtmlBlock none⟩).push
  let fp1 := { fp with tree := t }
  match FirstPass.html67_loop fuel fp1 start_ix remaining_space with
  | none => none
  | some (ix, end_ix, fp2) =>
    match fp2.pop fuel end_ix with
    | none => none
    | some fp3 => some (ix, fp3)

/-- `FirstPass::parse_hrule`. -/
def FirstPass.parse_hrule (fp : FirstPass) (hrule_size ix : Nat) :
    Nat × FirstPass :=
  (ix + hrule_size,
    { fp with tree := fp.tree.append ⟨ix, ix + hrule_size, ItemBody.Rule⟩ })

/-- The trailing trim loops of `parse_atx_heading`:
`while x > 0 && header_text[x-1] == c { x -= 1 }`. -/
def trim_byte_run (s : Bytes) (off : Nat) (c : Nat) : Nat → Nat
  | 0 => 0
  | l + 1 => if byteAt s (off + l) = c then trim_byte_run s off c l else l + 1

/-- `FirstPass::parse_atx_heading`.  Note: the Rust code indexes
`self.text.as_bytes()[ix]` right after the `#` run, which the scanner
guarantees to be in range only when the heading is not at end of input;
the embedding reads byte 0 there. -/
def FirstPass.parse_atx_heading (fp : FirstPass) (ix0 : Nat) (atx_level : Int)
    (atx_size : Nat) : Nat × FirstPass :=
  let t := fp.tree.append ⟨ix0, 0, ItemBody.Header atx_level⟩
  let ix := ix0 + atx_size
  let b := byteAt fp.text ix
  if b = 10 ∨ b = 13 then
    (ix + (scan_eol (fp.text.drop ix)).1, { fp with tree := t })
  else
    let skip_spaces := scan_whitespace_no_nl (fp.text.drop ix)
    let ix1 := ix + skip_spaces
    let header_start := ix1
    let header_node_idx := t.cur
    let t1 := t.push
    let (t2, ix2, _) := parse_line t1 fp.text ix1
    let t3 := t2.setStop header_node_idx ix2
    let limit0 := ix2 - header_start
    let limit1 :=
      if 0 < limit0 ∧ byteAt fp.text (header_start + limit0 - 1) = 10 then limit0 - 1
      else limit0
    let limit2 :=
      if 0 < limit1 ∧ byteAt fp.text (header_start + limit1 - 1) = 13 then limit1 - 1
      else limit1
    let limit3 := trim_byte_run fp.text header_start 32 limit2
    let closer := trim_byte_run fp.text header_start 35 limit3
    let limit4 :=
      if 0 < closer ∧ byteAt fp.text (header_start + closer - 1) = 32 then
        trim_byte_run fp.text header_start 32 closer
      else if closer = 0 then closer
      else limit3
    let t4 :=
      if t3.cur ≠ NIL then t3.setStop t3.cur (limit4 + header_start) else t3
    (ix2, { fp with tree := t4.pop })

/-- Loop of `FirstPass::parse_paragraph` over continuation lines. -/
def FirstPass.paragraph_loop :
    Nat → FirstPass → Nat → Nat → Option (Nat × FirstPass)
  | 0, _, _, _ => none
  | fuel + 1, fp, node, ix0 =>
    let (t1, next_ix, brk) := parse_line fp.tree fp.text ix0
    let fp1 := { fp with tree := t1 }
    let ix := next_ix
    let ls := LineStart.new (fp1.text.drop ix)
    let (n_containers, ls1) := fp1.scan_containers ls
    let (ok4, ls2) := ls1.scan_space 4
    let setext : Option (Nat × Int) :=
      if !ok4 ∧ n_containers = fp1.tree.spine.length then
        scan_setext_heading (fp1.text.drop (ix + ls2.bytes_scanned))
      else none
    match setext with
    | some (n, level) =>
      let ix_new := ix + ls2.bytes_scanned
      let t2 := fp1.tree.setBody node (ItemBody.Header level)
      let t3 :=
        match brk with
        | some ⟨start, _, ItemBody.HardBreak⟩ =>
          if byteAt fp1.text start = 92 then t2.append_text start (start + 1) else t2
        | _ => t2
      some (ix_new + n, { fp1 with tree := t3 })
    | none =>
      if !ok4 ∧ scan_paragraph_interrupt (fp1.text.drop (ix + ls2.bytes_scanned)) then
        some (ix, fp1)
      else
        let ls3 := ls2.scan_all_space
        let ix2 := next_ix + ls3.bytes_scanned
        let fp2 :=
          match brk with
          | some item => { fp1 with tree := fp1.tree.append item }
          | none => fp1
        FirstPass.paragraph_loop fuel fp2 node ix2

/-- `FirstPass::parse_paragraph`. -/
def FirstPass.parse_paragraph (fuel : Nat) (fp : FirstPass) (start_ix : Nat) :
    Option (Nat × FirstPass) :=
  let t := fp.tree.append ⟨start_ix, 0, ItemBody.Paragraph⟩
  let node := t.cur
  let fp1 := { fp with tree := t.push }
  match FirstPass.paragraph_loop fuel fp1 node start_ix with
  | none => none
  | some (ix, fp2) =>
    let t2 := fp2.tree.pop
    let t3 := t2.setStop t2.cur ix
    some (ix, { fp2 with tree := t3 })

/-- The `for _ in i..spine.len()` pop loop of `parse_block` (and the final
pop loop of `run`): pop `count` containers at offset `ix`. -/
def FirstPass.pop_loop (fuel : Nat) : Nat → FirstPass → Nat → Option FirstPass
  | 0, fp, _ => some fp
  | n + 1, fp, ix =>
    match fp.pop fuel ix with
    | none => none
    | some fp1 => FirstPass.pop_loop fuel n fp1 ix

/-- The new-container loop of `parse_block`: open block quotes and list
items while their markers are present. -/
def FirstPass.containers_loop (fuel0 : Nat) :
    Nat → FirstPass → Nat → LineStart → Option (FirstPass × LineStart)
  | 0, _, _, _ => none
  | fuel + 1, fp, start_ix, ls =>
    let container_start := start_ix + ls.bytes_scanned
    let (isBq, ls1) := ls.scan_blockquote_marker
    if isBq then
      match fp.finish_list fuel0 start_ix with
      | none => none
      | some fp1 =>
        let t := (fp1.tree.append ⟨container_start, 0, ItemBody.BlockQuote⟩).push
        FirstPass.containers_loop fuel0 fuel { fp1 with tree := t } start_ix ls1
    else
      let (marker, ls2) := ls1.scan_list_marker
      match marker with
      | some (ch, index, indent) =>
        let opt_index := if ch = 46 ∨ ch = 41 then some index else none
        match fp.continue_list fuel0 container_start ch opt_index with
        | none => none
        | some fp1 =>
          let t := (fp1.tree.append ⟨container_start, 0, ItemBody.ListItem indent⟩).push
          FirstPass.containers_loop fuel0 fuel { fp1 with tree := t } start_ix ls2
      | none => some (fp, ls2)

/-- `FirstPass::parse_block`: returns the offset after the block. -/
def FirstPass.parse_block (fuel : Nat) (fp : FirstPass) (start_ix : Nat) :
    Option (Nat × FirstPass) :=
  let ls := LineStart.new (fp.text.drop start_ix)
  let (i, ls1) := fp.scan_containers ls
  match FirstPass.pop_loop fuel (fp.tree.spine.length - i) fp start_ix with
  | none => none
  | some fpA =>
  match FirstPass.containers_loop fuel fuel fpA start_ix ls1 with
  | none => none
  | some (fpB, ls2) =>
  let ix := start_ix + ls2.bytes_scanned
  match scan_blank_line (fpB.text.drop ix) with
  | some n => some (ix + n, { fpB with last_line_blank := true })
  | none =>
  match fpB.finish_list fuel start_ix with
  | none => none
  | some fpC =>
  let remaining_space := ls2.remaining_space
  let (indent, ls3) := ls2.scan_space_upto 4
  if indent = 4 then
    let ixI := start_ix + ls3.bytes_scanned
    fpC.parse_indented_code_block fuel ixI ls3.remaining_space
  else
  let nonspace_ix := start_ix + ls3.bytes_scanned
  match get_html_end_tag (fpC.text.drop nonspace_ix) with
  | some html_end_tag =>
    fpC.parse_html_block_type_1_to_5 fuel ix html_end_tag remaining_space
  | none =>
  if is_html_tag (scan_html_block_tag (fpC.text.drop nonspace_ix)).2 then
    fpC.parse_html_block_type_6_or_7 fuel ix remaining_space
  else if (scan_html_type_7 (fpC.text.drop nonspace_ix)).isSome then
    fpC.parse_html_block_type_6_or_7 fuel ix remaining_space
  else
  let ix2 := start_ix + ls3.bytes_scanned
  let n := scan_hrule (fpC.text.drop ix2)
  if 0 < n then some (fpC.parse_hrule n ix2)
  else
  match scan_atx_heading (fpC.text.drop ix2) with
  | some (atx_size, atx_level) => some (fpC.parse_atx_heading ix2 atx_level atx_size)
  | none =>
  let (nf, fence_ch) := scan_code_fence (fpC.text.drop ix2)
  if 0 < nf then fpC.parse_fenced_code_block fuel ix2 indent fence_ch nf
  else fpC.parse_paragraph fuel ix2

/-- The `while ix < self.text.len()` loop of `FirstPass::run`. -/
def FirstPass.run_loop : Nat → FirstPass → Nat → Option (Nat × FirstPass)
  | 0, _, _ => none
  | fuel + 1, fp, ix =>
    if ix < fp.text.length then
      match fp.parse_block fuel ix with
      | none => none
      | some (ix2, fp2) => FirstPass.run_loop fuel fp2 ix2
    else some (ix, fp)

/-- `FirstPass::run`: drive the block scan over the whole input, then close
the remaining open containers. -/
def FirstPass.run (fuel : Nat) (fp : FirstPass) : Option Tree :=
  match FirstPass.run_loop fuel fp 0 with
  | none => none
  | some (ix, fp1) =>
    match FirstPass.pop_loop fuel fp1.tree.spine.length fp1 ix with
    | none => none
    | some fp2 => some fp2.tree

/-- `Options` from the surrounding crate (a bit-flags value; its contents
never influence this parser core). -/
structure Options where
  bits : Nat
deriving Repr, DecidableEq

/-- `Options::empty()`. -/
def Options.empty : Options := ⟨0⟩

/-- `Parser` from `prototype.rs`. -/
structure Parser where
  text : Bytes
  tree : Tree
deriving Repr, DecidableEq

/-- `Parser::new_ext`: run the first pass, then reset the cursor to the
root's first node and clear the spine.  The `opts` argument is unused in
the source (`#[allow(unused_variables)]`). -/
def Parser.new_ext (fuel : Nat) (text : Bytes) (opts : Options) : Option Parser :=
  match (FirstPass.new text).run fuel with
  | none => none
  | some tree =>
    let tree2 := { tree with cur := if tree.nodes.isEmpty then NIL else 0,
                             spine := [] }
    some ⟨text, tree2⟩

/-- `Parser::new`. -/
def Parser.new (fuel : Nat) (text : Bytes) : Option Parser :=
  Parser.new_ext fuel text Options.empty


/-!  The inline resolver.  First the delimiter stack (`InlineStack` in
`prototype.rs`); the Rust `Vec` is a list with the bottom of the stack
first, so `push` appends and `pop` removes the last element. -/

structure InlineEl where
  start : Nat
  count : Nat
  c : Nat
  both : Bool
deriving Repr, DecidableEq

/-- `for i in 0..count { tree.nodes[start + i].item.body = Text }` (used by
`InlineStack::pop_to` and `handle_emphasis`). -/
def Tree.setTextRun (t : Tree) (start count : Nat) : Tree :=
  (List.range count).foldl (fun tt i => tt.setBody (start + i) ItemBody.Text) t

/-- `InlineStack::find_match`: search the stack top-to-bottom for the
nearest opener with the same character for which the CommonMark rule-9/10
exclusion does not fire; returns the stack index (from the bottom, as the
Rust `enumerate` does) and the element. -/
def InlineStack.find_match (stack : List InlineEl) (c : Nat) (count : Nat)
    (both : Bool) : Option (Nat × InlineEl) :=
  match stack with
  | [] => none
  | el :: rest =>
    match InlineStack.find_match rest c count both with
    | some (j, e) => some (j + 1, e)
    | none =>
      if el.c = c ∧ ¬((both ∨ el.both) ∧ (count + el.count) % 3 = 0) then
        some (0, el)
      else none

/-- `InlineStack::pop_to` (inner loop): flatten stack entries above
`new_len` back to text; the fuel is the starting stack length, which
always suffices since each step drops one entry. -/
def InlineStack.pop_to_go : Nat → Tree → List InlineEl → Nat → Tree × List InlineEl
  | 0, t, stack, _ => (t, stack)
  | fuel + 1, t, stack, new_len =>
    if new_len < stack.length then
      match stack.getLast? with
      | some el =>
        InlineStack.pop_to_go fuel (t.setTextRun el.start el.count)
          stack.dropLast new_len
      | none => (t, stack)
    else (t, stack)

/-- `InlineStack::pop_to`: flatten stack entries above `new_len` back to
text. -/
def InlineStack.pop_to (t : Tree) (stack : List InlineEl) (new_len : Nat) :
    Tree × List InlineEl :=
  InlineStack.pop_to_go stack.length t stack new_len

/-- The delimiter-emission schedule of `handle_emphasis`'s inner `while
start < el.start + el.count` loop: while more than one delimiter remains
emit a `Strong` consuming two, else an `Emphasis` consuming one. -/
def emitSchedule : Nat → List (Nat × ItemBody)
  | 0 => []
  | 1 => [(1, ItemBody.Emphasis)]
  | m + 2 => (2, ItemBody.Strong) :: emitSchedule m

/-- The nested-pair emission loop of `handle_emphasis`, driven by
`emitSchedule match_count`: each step turns the node at `start` into the
`Strong`/`Emphasis` ancestor of the remaining range. -/
def emphEmitLoop : Tree → List (Nat × ItemBody) → Nat → Nat → Nat → Tree
  | t, [], _, _, _ => t
  | t, (inc, ty) :: rest, start, endIx, next =>
    let root := start + inc
    let endIx2 := endIx - inc
    let t1 := t.setBody start ty
    let t2 := t1.setStop start (t1.node endIx2).item.stop
    let t3 := t2.setChild start root
    let t4 := t3.setNext start next
    emphEmitLoop t4 rest root endIx2 NIL

/-- The `while let Some((j, el)) = stack.find_match(..)` loop of
`handle_emphasis`, for one closing run.  Returns the updated tree, stack,
`prev`, `cur` and remaining closer count. -/
def emphCloserLoop (c : Nat) (both : Bool) :
    Nat → Tree → List InlineEl → Nat → Nat → Nat →
      Option (Tree × List InlineEl × Nat × Nat × Nat)
  | 0, _, _, _, _, _ => none
  | fuel + 1, t, stack, prev, cur, count =>
    match InlineStack.find_match stack c count both with
    | none => some (t, stack, prev, cur, count)
    | some (j, el) =>
      let t1 := t.setNext prev NIL
      let match_count := min count el.count
      let endIx := cur + match_count
      let cur2 := (t1.node (endIx - 1)).next
      let next := cur2
      let start := el.start + el.count - match_count
      let prev2 := start
      let t2 := emphEmitLoop t1 (emitSchedule match_count) start endIx next
      let (t3, stack1) := InlineStack.pop_to t2 stack (j + 1)
      let stack2 := stack1.dropLast
      let stack3 :=
        if match_count < el.count then
          stack2 ++ [⟨el.start, el.count - match_count, el.c, both⟩]
        else stack2
      let count2 := count - match_count
      if count2 = 0 then some (t3, stack3, prev2, cur2, 0)
      else emphCloserLoop c both fuel t3 stack3 prev2 cur2 count2

/-- The main walk of `handle_emphasis` over the sibling chain. -/
def handle_emphasis_loop (s : Bytes) :
    Nat → Tree → List InlineEl → Nat → Nat → Option (Tree × List InlineEl)
  | 0, _, _, _, _ => none
  | fuel + 1, t, stack, prev, cur =>
    if cur = NIL then some (t, stack)
    else
      match (t.node cur).item.body with
      | ItemBody.Inline count can_open can_close =>
        let c := byteAt s (t.node cur).item.start
        let both := can_open && can_close
        let closerResult :=
          if can_close then emphCloserLoop c both fuel t stack prev cur count
          else some (t, stack, prev, cur, count)
        match closerResult with
        | none => none
        | some (t1, stack1, prev1, cur1, count1) =>
          if 0 < count1 then
            let (t2, stack2) :=
              if can_open then (t1, stack1 ++ [⟨cur1, count1, c, both⟩])
              else (t1.setTextRun cur1 count1, stack1)
            let prev2 := cur1 + count1 - 1
            let cur2 := (t2.node prev2).next
            handle_emphasis_loop s fuel t2 stack2 prev2 cur2
          else handle_emphasis_loop s fuel t1 stack1 prev1 cur1
      | _ => handle_emphasis_loop s fuel t stack cur ((t.node cur).next)

/-- `handle_emphasis` from `prototype.rs`. -/
def handle_emphasis (fuel : Nat) (t : Tree) (s : Bytes) : Option Tree :=
  match handle_emphasis_loop s fuel t [] NIL t.cur with
  | none => none
  | some (t1, stack) => some (InlineStack.pop_to t1 stack 0).1

/-!  `make_code_span` from `prototype.rs`. -/

/-- The content-conversion loop of `make_code_span`: soft breaks become a
synthesized space; a hard break starting with a backslash becomes the
backslash as text followed by an inserted synthesized-space node; other
hard breaks become a synthesized space; everything else becomes text.  The
loop ends by cutting the link to `close`, and returns `last`. -/
def make_code_span_loop (s : Bytes) (close : Nat) :
    Nat → Tree → Nat → Option (Tree × Nat)
  | 0, _, _ => none
  | fuel + 1, t, node =>
    let next := (t.node node).next
    let t1 :=
      match (t.node node).item.body with
      | ItemBody.SoftBreak => t.setBody node (ItemBody.SynthesizeText [32])
      | ItemBody.HardBreak =>
        let start := (t.node node).item.start
        if byteAt s start = 92 then
          let ta := t.setBody node ItemBody.Text
          let stop := (ta.node node).item.stop
          let (tb, space) :=
            ta.create_node ⟨start + 1, stop, ItemBody.SynthesizeText [32]⟩
          let tc := tb.setNext space next
          let td := tc.setNext node space
          td.setStop node (start + 1)
        else t.setBody node (ItemBody.SynthesizeText [32])
      | _ => t.setBody node ItemBody.Text
    if next = close then some (t1.setNext node NIL, node)
    else make_code_span_loop s close fuel t1 next

/-- `make_code_span` from `prototype.rs`: splice the chain between two
matching `MaybeCode` markers into a `Code` node, convert its content, and
strip one leading and one trailing space when both ends are space-bearing. -/
def make_code_span (fuel : Nat) (t : Tree) (s : Bytes) (openIx close : Nat) :
    Option Tree :=
  let t1 := t.setStop openIx (t.node close).item.stop
  let t2 := t1.setBody openIx ItemBody.Code
  let first := (t2.node openIx).next
  let t3 := t2.setNext openIx (t2.node close).next
  let t4 := t3.setChild openIx first
  match make_code_span_loop s close fuel t4 first with
  | none => none
  | some (t5, last) =>
    let opening : Bool :=
      match (t5.node first).item.body with
      | ItemBody.Text => byteAt s (t5.node first).item.start == 32
      | ItemBody.SynthesizeText txt => txt.head? == some 32
      | _ => false
    let closing : Bool :=
      match (t5.node last).item.body with
      | ItemBody.Text => byteAt s ((t5.node last).item.stop - 1) == 32
      | ItemBody.SynthesizeText txt => txt.getLast? == some 32
      | _ => false
    if opening && closing then
      let t6 :=
        if (t5.node first).item.body = ItemBody.SynthesizeText [32] ∨
            (t5.node first).item.stop - (t5.node first).item.start = 1 then
          t5.setChild openIx (t5.node first).next
        else t5.setStart first ((t5.node first).item.start + 1)
      let t7 :=
        if (t6.node last).item.body = ItemBody.SynthesizeText [32] then
          t6.setBody last (ItemBody.SynthesizeText [])
        else t6.setStop last ((t6.node last).item.stop - 1)
      some t7
    else some t5


/-!  The inline scanner (`InlineScanner` in `prototype.rs`): a byte cursor
walking a sibling chain.  Every scanning function takes fuel and returns
`none` exactly when the fuel runs out; the Rust `Option` results appear
inside the pair. -/

structure InlineScanner where
  tree : Tree
  text : Bytes
  cur : Nat
  ix : Nat
deriving Repr, DecidableEq

/-- `InlineScanner::new`. -/
def InlineScanner.new (t : Tree) (s : Bytes) (cur : Nat) : InlineScanner :=
  ⟨t, s, cur, if cur = NIL then NIL else (t.node cur).item.start⟩

/-- `InlineScanner::unget`. -/
def InlineScanner.unget (sc : InlineScanner) : InlineScanner :=
  { sc with ix := sc.ix - 1 }

/-- `<InlineScanner as Iterator>::next`: yield the next byte, skipping
exhausted nodes. -/
def InlineScanner.nextByte : Nat → InlineScanner → Option (Option Nat × InlineScanner)
  | 0, _ => none
  | fuel + 1, sc =>
    if sc.cur = NIL then some (none, sc)
    else if sc.ix = (sc.tree.node sc.cur).item.stop then
      let cur2 := (sc.tree.node sc.cur).next
      if cur2 = NIL then some (none, { sc with cur := NIL })
      else
        InlineScanner.nextByte fuel
          { sc with cur := cur2, ix := (sc.tree.node cur2).item.start }
    else some (some (byteAt sc.text sc.ix), { sc with ix := sc.ix + 1 })

/-- `InlineScanner::scan_if`. -/
def InlineScanner.scan_if (f : Nat → Bool) (fuel : Nat) (sc : InlineScanner) :
    Option (Bool × InlineScanner) :=
  match InlineScanner.nextByte fuel sc with
  | none => none
  | some (none, sc1) => some (false, sc1)
  | some (some c, sc1) =>
    if f c then some (true, sc1) else some (false, sc1.unget)

/-- `InlineScanner::scan_ch`. -/
def InlineScanner.scan_ch (c : Nat) (fuel : Nat) (sc : InlineScanner) :
    Option (Bool × InlineScanner) :=
  InlineScanner.scan_if (fun b => b == c) fuel sc

/-- `InlineScanner::scan_while`. -/
def InlineScanner.scan_while (f : Nat → Bool) :
    Nat → InlineScanner → Option (Nat × InlineScanner)
  | 0, _ => none
  | fuel + 1, sc =>
    match InlineScanner.nextByte (fuel + 1) sc with
    | none => none
    | some (none, sc1) => some (0, sc1)
    | some (some c, sc1) =>
      if f c then
        match InlineScanner.scan_while f fuel sc1 with
        | none => none
        | some (n, sc2) => some (n + 1, sc2)
      else some (0, sc1.unget)

/-- `InlineScanner::scan_upto`. -/
def InlineScanner.scan_upto (c : Nat) (fuel : Nat) (sc : InlineScanner) :
    Option (Nat × InlineScanner) :=
  InlineScanner.scan_while (fun b => b != c) fuel sc

/-- `InlineScanner::scan_str` (consumes the matched part even on failure). -/
def InlineScanner.scan_str : Bytes → Nat → InlineScanner → Option (Bool × InlineScanner)
  | [], _, sc => some (true, sc)
  | b :: rest, fuel, sc =>
    match InlineScanner.scan_ch b fuel sc with
    | none => none
    | some (true, sc1) => InlineScanner.scan_str rest fuel sc1
    | some (false, sc1) => some (false, sc1)

/-- `InlineScanner::to_node_and_ix`. -/
def InlineScanner.to_node_and_ix (sc : InlineScanner) : Nat × Nat :=
  let cur :=
    if sc.cur ≠ NIL ∧ (sc.tree.node sc.cur).item.stop = sc.ix then
      (sc.tree.node sc.cur).next
    else sc.cur
  (cur, sc.ix)

/-- Length of the UTF-8 encoding whose first byte is `c0`. -/
def utf8Len (c0 : Nat) : Nat :=
  if c0 < 128 then 1 else if c0 < 224 then 2 else if c0 < 240 then 3 else 4

/-- Decode the UTF-8 code point starting at `ix` (the input is valid
UTF-8, as guaranteed by the Rust `&str`). -/
def utf8Decode (s : Bytes) (ix : Nat) : Nat :=
  let c0 := byteAt s ix
  if c0 < 128 then c0
  else if c0 < 224 then (c0 - 192) * 64 + (byteAt s (ix + 1) - 128)
  else if c0 < 240 then
    (c0 - 224) * 4096 + (byteAt s (ix + 1) - 128) * 64 + (byteAt s (ix + 2) - 128)
  else
    (c0 - 240) * 262144 + (byteAt s (ix + 1) - 128) * 4096 +
      (byteAt s (ix + 2) - 128) * 64 + (byteAt s (ix + 3) - 128)

/-- `InlineScanner::next_char`: like `next` but decoding a whole code
point. -/
def InlineScanner.next_char : Nat → InlineScanner → Option (Option Nat × InlineScanner)
  | 0, _ => none
  | fuel + 1, sc =>
    if sc.cur = NIL then some (none, sc)
    else if sc.ix = (sc.tree.node sc.cur).item.stop then
      let cur2 := (sc.tree.node sc.cur).next
      if cur2 = NIL then some (none, { sc with cur := NIL })
      else
        InlineScanner.next_char fuel
          { sc with cur := cur2, ix := (sc.tree.node cur2).item.start }
    else if sc.ix < sc.text.length then
      some (some (utf8Decode sc.text sc.ix),
        { sc with ix := sc.ix + utf8Len (byteAt sc.text sc.ix) })
    else some (none, sc)

/-!  Inline HTML recognition (`scan_inline_html` and helpers). -/

/-- `scan_inline_attribute_name`. -/
def scan_inline_attribute_name (fuel : Nat) (sc : InlineScanner) :
    Option (Bool × InlineScanner) :=
  match InlineScanner.scan_if (fun c => is_ascii_alpha c || c == 95 || c == 58) fuel sc with
  | none => none
  | some (false, sc1) => some (false, sc1)
  | some (true, sc1) =>
    match InlineScanner.scan_while
        (fun c => is_ascii_alphanumeric c || c == 95 || c == 46 || c == 58 || c == 45)
        fuel sc1 with
    | none => none
    | some (_, sc2) => some (true, sc2)

/-- `scan_inline_attribute_value`. -/
def scan_inline_attribute_value (fuel : Nat) (sc : InlineScanner) :
    Option (Bool × InlineScanner) :=
  match InlineScanner.nextByte fuel sc with
  | none => none
  | some (none, sc1) => some (false, sc1)
  | some (some c, sc1) =>
    if is_ascii_whitespace c || c == 61 || c == 60 || c == 62 || c == 96 then
      some (false, sc1.unget)
    else if c = 39 then
      match InlineScanner.scan_while (fun b => b != 39) fuel sc1 with
      | none => none
      | some (_, sc2) => InlineScanner.scan_ch 39 fuel sc2
    else if c = 34 then
      match InlineScanner.scan_while (fun b => b != 34) fuel sc1 with
      | none => none
      | some (_, sc2) => InlineScanner.scan_ch 34 fuel sc2
    else
      match InlineScanner.scan_while
          (fun b => !(is_ascii_whitespace b || b == 61 || b == 60 || b == 62 ||
            b == 96 || b == 39 || b == 34)) fuel sc1 with
      | none => none
      | some (_, sc2) => some (true, sc2)

/-- `scan_inline_attribute`. -/
def scan_inline_attribute (fuel : Nat) (sc : InlineScanner) :
    Option (Bool × InlineScanner) :=
  match scan_inline_attribute_name fuel sc with
  | none => none
  | some (false, sc1) => some (false, sc1)
  | some (true, sc1) =>
    match InlineScanner.scan_while is_ascii_whitespace fuel sc1 with
    | none => none
    | some (n_whitespace, sc2) =>
      match InlineScanner.scan_ch 61 fuel sc2 with
      | none => none
      | some (true, sc3) =>
        match InlineScanner.scan_while is_ascii_whitespace fuel sc3 with
        | none => none
        | some (_, sc4) => scan_inline_attribute_value fuel sc4
      | some (false, sc3) =>
        if 0 < n_whitespace then some (true, sc3.unget) else some (true, sc3)

/-- The `while scanner.scan_upto(b'-') > 0` loop of
`scan_inline_html_comment`. -/
def html_comment_loop : Nat → InlineScanner → Option (Bool × InlineScanner)
  | 0, _ => none
  | fuel + 1, sc =>
    match InlineScanner.scan_upto 45 (fuel + 1) sc with
    | none => none
    | some (n, sc1) =>
      if 0 < n then
        match InlineScanner.scan_ch 45 (fuel + 1) sc1 with
        | none => none
        | some (_, sc2) =>
          match InlineScanner.scan_ch 45 (fuel + 1) sc2 with
          | none => none
          | some (true, sc3) => InlineScanner.scan_ch 62 (fuel + 1) sc3
          | some (false, sc3) => html_comment_loop fuel sc3
      else some (false, sc1)

/-- The CDATA loop of `scan_inline_html_comment`. -/
def html_cdata_loop : Nat → InlineScanner → Option (Bool × InlineScanner)
  | 0, _ => none
  | fuel + 1, sc =>
    match InlineScanner.scan_upto 93 (fuel + 1) sc with
    | none => none
    | some (_, sc1) =>
      match InlineScanner.scan_ch 93 (fuel + 1) sc1 with
      | none => none
      | some (false, sc2) => some (false, sc2)
      | some (true, sc2) =>
        match InlineScanner.scan_while (fun c => c == 93) (fuel + 1) sc2 with
        | none => none
        | some (n, sc3) =>
          if 0 < n then
            match InlineScanner.scan_ch 62 (fuel + 1) sc3 with
            | none => none
            | some (true, sc4) => some (true, sc4)
            | some (false, sc4) => html_cdata_loop fuel sc4
          else html_cdata_loop fuel sc3

/-- `scan_inline_html_comment` (initial `<!` already consumed). -/
def scan_inline_html_comment (fuel : Nat) (sc : InlineScanner) :
    Option (Bool × InlineScanner) :=
  match InlineScanner.nextByte fuel sc with
  | none => none
  | some (none, sc1) => some (false, sc1)
  | some (some c, sc1) =>
    if c = 45 then
      match InlineScanner.scan_ch 45 fuel sc1 with
      | none => none
      | some (false, sc2) => some (false, sc2)
      | some (true, sc2) =>
        match InlineScanner.scan_ch 62 fuel sc2 with
        | none => none
        | some (true, sc3) => some (false, sc3)
        | some (false, sc3) =>
          match InlineScanner.scan_ch 45 fuel sc3 with
          | none => none
          | some (true, sc4) =>
            match InlineScanner.scan_ch 62 fuel sc4 with
            | none => none
            | some (true, sc5) => some (false, sc5)
            | some (false, sc5) => html_comment_loop fuel sc5.unget
          | some (false, sc4) => html_comment_loop fuel sc4
    else if c = 91 then
      match InlineScanner.scan_str [67, 68, 65, 84, 65, 91] fuel sc1 with
      | none => none
      | some (false, sc2) => some (false, sc2)
      | some (true, sc2) => html_cdata_loop fuel sc2
    else
      match InlineScanner.scan_while (fun b => 65 ≤ b && b ≤ 90) fuel sc1 with
      | none => none
      | some (n1, sc2) =>
        if n1 = 0 then some (false, sc2)
        else
          match InlineScanner.scan_while is_ascii_whitespace fuel sc2 with
          | none => none
          | some (n2, sc3) =>
            if n2 = 0 then some (false, sc3)
            else
              match InlineScanner.scan_upto 62 fuel sc3 with
              | none => none
              | some (_, sc4) => InlineScanner.scan_ch 62 fuel sc4

/-- `scan_inline_html_processing` (initial `<?` already consumed). -/
def scan_inline_html_processing : Nat → InlineScanner → Option (Bool × InlineScanner)
  | 0, _ => none
  | fuel + 1, sc =>
    match InlineScanner.nextByte (fuel + 1) sc with
    | none => none
    | some (none, sc1) => some (false, sc1)
    | some (some c, sc1) =>
      if c = 63 then
        match InlineScanner.scan_ch 62 (fuel + 1) sc1 with
        | none => none
        | some (true, sc2) => some (true, sc2)
        | some (false, sc2) => scan_inline_html_processing fuel sc2
      else scan_inline_html_processing fuel sc1

/-- The attribute loop of `scan_inline_html`'s open-tag arm. -/
def open_tag_loop : Nat → InlineScanner → Option (Bool × InlineScanner)
  | 0, _ => none
  | fuel + 1, sc =>
    match InlineScanner.scan_while is_ascii_whitespace (fuel + 1) sc with
    | none => none
    | some (n_whitespace, sc1) =>
      match InlineScanner.nextByte (fuel + 1) sc1 with
      | none => none
      | some (none, sc2) => some (false, sc2)
      | some (some c, sc2) =>
        if c = 47 then InlineScanner.scan_ch 62 (fuel + 1) sc2
        else if c = 62 then some (true, sc2)
        else if n_whitespace = 0 then some (false, sc2)
        else
          match scan_inline_attribute (fuel + 1) sc2.unget with
          | none => none
          | some (false, sc3) => some (false, sc3)
          | some (true, sc3) => open_tag_loop fuel sc3

/-- `scan_inline_html` from `prototype.rs`. -/
def scan_inline_html (fuel : Nat) (sc : InlineScanner) :
    Option (Bool × InlineScanner) :=
  match InlineScanner.nextByte fuel sc with
  | none => none
  | some (none, sc1) => some (false, sc1)
  | some (some c, sc1) =>
    if c = 33 then scan_inline_html_comment fuel sc1
    else if c = 63 then scan_inline_html_processing fuel sc1
    else if c = 47 then
      match InlineScanner.scan_if is_ascii_alpha fuel sc1 with
      | none => none
      | some (false, sc2) => some (false, sc2)
      | some (true, sc2) =>
        match InlineScanner.scan_while is_ascii_letterdigitdash fuel sc2 with
        | none => none
        | some (_, sc3) =>
          match InlineScanner.scan_while is_ascii_whitespace fuel sc3 with
          | none => none
          | some (_, sc4) => InlineScanner.scan_ch 62 fuel sc4
    else if is_ascii_alpha c then
      match InlineScanner.scan_while is_ascii_letterdigitdash fuel sc1 with
      | none => none
      | some (_, sc2) => open_tag_loop fuel sc2
    else some (false, sc1)

/-!  Inline link recognition (`scan_inline_link` and helpers).  The
destination and title are accumulated as code-point lists. -/

/-- `scan_link_destination_plain`. -/
def scan_link_destination_plain :
    Nat → InlineScanner → Bytes → Nat → Option (Option Bytes × InlineScanner)
  | 0, _, _, _ => none
  | fuel + 1, sc, url, nest =>
    match InlineScanner.next_char (fuel + 1) sc with
    | none => none
    | some (none, sc1) => some (none, sc1)
    | some (some c, sc1) =>
      if c = 40 then scan_link_destination_plain fuel sc1 (url ++ [c]) (nest + 1)
      else if c = 41 then
        if nest = 0 then some (some url, sc1.unget)
        else scan_link_destination_plain fuel sc1 (url ++ [c]) (nest - 1)
      else if c ≤ 32 then some (some url, sc1.unget)
      else if c = 92 then
        match InlineScanner.next_char (fuel + 1) sc1 with
        | none => none
        | some (none, sc2) => some (none, sc2)
        | some (some c2, sc2) =>
          let url2 :=
            if c2 ≤ 127 ∧ is_ascii_punctuation c2 then url ++ [c2]
            else url ++ [92, c2]
          scan_link_destination_plain fuel sc2 url2 nest
      else scan_link_destination_plain fuel sc1 (url ++ [c]) nest

/-- Loop of `scan_link_destination_pointy` (after the `<`). -/
def scan_link_destination_pointy_loop :
    Nat → InlineScanner → Bytes → Option (Option Bytes × InlineScanner)
  | 0, _, _ => none
  | fuel + 1, sc, url =>
    match InlineScanner.next_char (fuel + 1) sc with
    | none => none
    | some (none, sc1) => some (none, sc1)
    | some (some c, sc1) =>
      if c = 62 then some (some url, sc1)
      else if c ≤ 31 ∨ c = 60 then some (none, sc1)
      else if c = 92 then
        match InlineScanner.next_char (fuel + 1) sc1 with
        | none => none
        | some (none, sc2) => some (none, sc2)
        | some (some c2, sc2) =>
          let url2 :=
            if c2 ≤ 127 ∧ is_ascii_punctuation c2 then url ++ [c2]
            else url ++ [92, c2]
          scan_link_destination_pointy_loop fuel sc2 url2
      else scan_link_destination_pointy_loop fuel sc1 (url ++ [c])

/-- `scan_link_destination_pointy`. -/
def scan_link_destination_pointy (fuel : Nat) (sc : InlineScanner) :
    Option (Option Bytes × InlineScanner) :=
  match InlineScanner.scan_ch 60 fuel sc with
  | none => none
  | some (false, sc1) => some (none, sc1)
  | some (true, sc1) => scan_link_destination_pointy_loop fuel sc1 []

/-- `scan_link_destination`: try the pointy form, else restore and scan the
plain form. -/
def scan_link_destination (fuel : Nat) (sc : InlineScanner) :
    Option (Option Bytes × InlineScanner) :=
  match scan_link_destination_pointy fuel sc with
  | none => none
  | some (some url, sc1) => some (some url, sc1)
  | some (none, _) => scan_link_destination_plain fuel sc [] 0

/-- Loop of `scan_link_title`. -/
def scan_link_title_loop (openCh : Nat) :
    Nat → InlineScanner → Bytes → Nat → Option (Option Bytes × InlineScanner)
  | 0, _, _, _ => none
  | fuel + 1, sc, title, nest =>
    match InlineScanner.next_char (fuel + 1) sc with
    | none => none
    | some (none, sc1) => some (none, sc1)
    | some (some c, sc1) =>
      if c = openCh ∧ openCh ≠ 40 then some (some title, sc1)
      else if openCh = 40 ∧ c = 41 ∧ nest = 0 then some (some title, sc1)
      else
        let nest2 :=
          if c = openCh ∧ openCh = 40 then nest + 1
          else if openCh = 40 ∧ c = 41 then nest - 1
          else nest
        if c = 92 then
          match InlineScanner.next_char (fuel + 1) sc1 with
          | none => none
          | some (none, sc2) => some (none, sc2)
          | some (some c2, sc2) =>
            let title2 :=
              if c2 ≤ 127 ∧ is_ascii_punctuation c2 then title ++ [c2]
              else title ++ [92, c2]
            scan_link_title_loop openCh fuel sc2 title2 nest2
        else scan_link_title_loop openCh fuel sc1 (title ++ [c]) nest2

/-- `scan_link_title`. -/
def scan_link_title (fuel : Nat) (sc : InlineScanner) :
    Option (Option Bytes × InlineScanner) :=
  match InlineScanner.next_char fuel sc with
  | none => none
  | some (none, sc1) => some (none, sc1)
  | some (some openCh, sc1) =>
    if openCh = 39 ∨ openCh = 34 ∨ openCh = 40 then
      scan_link_title_loop openCh fuel sc1 [] 0
    else some (none, sc1)

/-- `scan_inline_link`: `(` blanks destination [blanks title blanks] `)`. -/
def scan_inline_link (fuel : Nat) (sc : InlineScanner) :
    Option (Option (Bytes × Bytes) × InlineScanner) :=
  match InlineScanner.scan_ch 40 fuel sc with
  | none => none
  | some (false, sc1) => some (none, sc1)
  | some (true, sc1) =>
  match InlineScanner.scan_while is_ascii_whitespace fuel sc1 with
  | none => none
  | some (_, sc2) =>
  match scan_link_destination fuel sc2 with
  | none => none
  | some (none, sc3) => some (none, sc3)
  | some (some url, sc3) =>
  let finish : Bytes → InlineScanner → Option (Option (Bytes × Bytes) × InlineScanner) :=
    fun title scN =>
      match InlineScanner.scan_ch 41 fuel scN with
      | none => none
      | some (false, scF) => some (none, scF)
      | some (true, scF) => some (some (url, title), scF)
  match InlineScanner.scan_while is_ascii_whitespace fuel sc3 with
  | none => none
  | some (nws, sc4) =>
    if 0 < nws then
      match scan_link_title fuel sc4 with
      | none => none
      | some (some t, sc5) =>
        match InlineScanner.scan_while is_ascii_whitespace fuel sc5 with
        | none => none
        | some (_, sc6) => finish t sc6
      | some (none, _) => finish [] sc3
    else finish [] sc4


/-!  Pass 1 of the inline resolver (`handle_inline_pass1`): code spans,
inline HTML, inline links.  The link stack holds node indices of rewritten
`MaybeLinkOpen` nodes (bottom first, as the Rust `Vec`). -/

/-- The forward scan of the `MaybeCode(count)` arm: the first sibling from
`scan` on whose body is `MaybeCode` with the same count, or `NIL`. -/
def maybe_code_scan (t : Tree) (count : Nat) : Nat → Nat → Option Nat
  | 0, _ => none
  | fuel + 1, scan =>
    if scan = NIL then some NIL
    else if (t.node scan).item.body = ItemBody.MaybeCode count then some scan
    else maybe_code_scan t count fuel (t.node scan).next

/-- The `MaybeCode(count)` arm of `handle_inline_pass1`: scan forward for
the first sibling with a `MaybeCode` of exactly the same count; found,
make the code span, else rewrite the origin to text. -/
def handle_maybe_code (fuel : Nat) (t : Tree) (s : Bytes) (cur count : Nat) :
    Option Tree :=
  let first := (t.node cur).next
  match maybe_code_scan t count fuel first with
  | none => none
  | some scan =>
    if scan = NIL then some (t.setBody cur ItemBody.Text)
    else make_code_span fuel t s cur scan

/-- The `MaybeLinkClose` arm of `handle_inline_pass1`: with a non-empty
link stack, try `scan_inline_link` after the bracket; on success rebuild
the top-of-stack node into a `Link` and clear the stack, on failure (or an
empty stack) rewrite the bracket to text.  Returns the tree, the node at
which the walk continues, and the link stack. -/
def link_close_step (fuel : Nat) (t : Tree) (s : Bytes) (cur prev : Nat)
    (link_stack : List Nat) : Option (Tree × Nat × List Nat) :=
  match link_stack.getLast? with
  | none => some (t.setBody cur ItemBody.Text, cur, link_stack)
  | some tos =>
    let next := (t.node cur).next
    match scan_inline_link fuel (InlineScanner.new t s next) with
    | none => none
    | some (none, _) => some (t.setBody cur ItemBody.Text, cur, link_stack)
    | some (some (url, title), scanner) =>
      let (next_node, next_ix) := scanner.to_node_and_ix
      let t1 := t.setNext prev NIL
      let cur2 := tos
      let t2 := t1.setBody cur2 (ItemBody.Link url title)
      let t3 := t2.setChild cur2 (t2.node cur2).next
      let t4 := t3.setNext cur2 next_node
      let t5 := if next_node ≠ NIL then t4.setStart next_node next_ix else t4
      some (t5, cur2, [])

/-- The walk of `handle_inline_pass1` over the sibling chain. -/
def handle_inline_pass1_loop (s : Bytes) :
    Nat → Tree → List Nat → Nat → Nat → Option Tree
  | 0, _, _, _, _ => none
  | fuel + 1, t, link_stack, prev, cur =>
    if cur = NIL then some t
    else
      match (t.node cur).item.body with
      | ItemBody.MaybeHtml =>
        let next := (t.node cur).next
        match scan_inline_html fuel (InlineScanner.new t s next) with
        | none => none
        | some (ok, scanner) =>
          if ok then
            let (node, ix) := scanner.to_node_and_ix
            let t1 := ((t.setBody cur ItemBody.InlineHtml).setStop cur ix).setNext cur node
            let t2 := if node ≠ NIL then t1.setStart node ix else t1
            handle_inline_pass1_loop s fuel t2 link_stack prev node
          else
            let t1 := t.setBody cur ItemBody.Text
            handle_inline_pass1_loop s fuel t1 link_stack cur (t1.node cur).next
      | ItemBody.MaybeCode count =>
        match handle_maybe_code fuel t s cur count with
        | none => none
        | some t1 => handle_inline_pass1_loop s fuel t1 link_stack cur (t1.node cur).next
      | ItemBody.MaybeLinkOpen =>
        let t1 := t.setBody cur ItemBody.Text
        handle_inline_pass1_loop s fuel t1 (link_stack ++ [cur]) cur (t1.node cur).next
      | ItemBody.MaybeLinkClose =>
        match link_close_step fuel t s cur prev link_stack with
        | none => none
        | some (t1, cur1, stack1) =>
          handle_inline_pass1_loop s fuel t1 stack1 cur1 (t1.node cur1).next
      | _ => handle_inline_pass1_loop s fuel t link_stack cur (t.node cur).next

/-- `handle_inline_pass1` from `prototype.rs`. -/
def handle_inline_pass1 (fuel : Nat) (t : Tree) (s : Bytes) : Option Tree :=
  handle_inline_pass1_loop s fuel t [] NIL t.cur

/-- `handle_inline` from `prototype.rs`: pass 1 then the emphasis pass. -/
def handle_inline (fuel : Nat) (t : Tree) (s : Bytes) : Option Tree :=
  match handle_inline_pass1 fuel t s with
  | none => none
  | some t1 => handle_emphasis fuel t1 s

/-!  The event iterator (`item_to_tag`, `item_to_event`, and
`<Parser as Iterator>::next`).  `Tag` and `Event` are the event types of
the surrounding crate (spec section 6.2). -/

inductive Tag where
  | Paragraph
  | Header (level : Int)
  | BlockQuote
  | List (idx : Option Nat)
  | Item
  | CodeBlock (info : Bytes)
  | HtmlBlock
  | Rule
  | Emphasis
  | Strong
  | Code
  | Link (dest title : Bytes)
deriving Repr, DecidableEq

inductive Event where
  | Start (tag : Tag)
  | End (tag : Tag)
  | Text (s : Bytes)
  | Html (s : Bytes)
  | InlineHtml (s : Bytes)
  | SoftBreak
  | HardBreak
  | Unreachable
deriving Repr, DecidableEq

/-- `item_to_tag` from `prototype.rs`. -/
def item_to_tag (it : Item) : Option Tag :=
  match it.body with
  | ItemBody.Paragraph => some Tag.Paragraph
  | ItemBody.Code => some Tag.Code
  | ItemBody.Emphasis => some Tag.Emphasis
  | ItemBody.Strong => some Tag.Strong
  | ItemBody.Link url title => some (Tag.Link url title)
  | ItemBody.Rule => some Tag.Rule
  | ItemBody.Header level => some (Tag.Header level)
  | ItemBody.FencedCodeBlock info => some (Tag.CodeBlock info)
  | ItemBody.IndentCodeBlock _ => some (Tag.CodeBlock [])
  | ItemBody.BlockQuote => some Tag.BlockQuote
  | ItemBody.List _ _ listitem_start => some (Tag.List listitem_start)
  | ItemBody.ListItem _ => some Tag.Item
  | ItemBody.HtmlBlock _ => some Tag.HtmlBlock
  | _ => none

/-- `item_to_event` from `prototype.rs` (leaf items only; the `panic!` arm
becomes the `Unreachable` event). -/
def item_to_event (it : Item) (text : Bytes) : Event :=
  match it.body with
  | ItemBody.Text => Event.Text ((text.drop it.start).take (it.stop - it.start))
  | ItemBody.SynthesizeText txt => Event.Text txt
  | ItemBody.SynthesizeNewLine => Event.Text [10]
  | ItemBody.BlankLine => Event.Text []
  | ItemBody.Html => Event.Html ((text.drop it.start).take (it.stop - it.start))
  | ItemBody.InlineHtml =>
    Event.InlineHtml ((text.drop it.start).take (it.stop - it.start))
  | ItemBody.SoftBreak => Event.SoftBreak
  | ItemBody.HardBreak => Event.HardBreak
  | _ => Event.Unreachable

/-- The shared tail of `<Parser as Iterator>::next`: start a container or
emit a leaf event and advance. -/
def Parser.step_tail (p : Parser) : Event × Parser :=
  let curIx := p.tree.cur
  let item := (p.tree.node curIx).item
  match item_to_tag item with
  | some tag =>
    let child := (p.tree.node curIx).child
    let t := { p.tree with spine := p.tree.spine ++ [curIx], cur := child }
    (Event.Start tag, { p with tree := t })
  | none =>
    let t := { p.tree with cur := (p.tree.node curIx).next }
    (item_to_event item p.text, { p with tree := t })

/-- `<Parser as Iterator>::next`: `none` is fuel exhaustion inside the
inline resolver, `some none` is end of iteration.  (The `unwrap` on the
popped spine node's tag cannot fail when the spine only ever holds nodes
pushed by `step_tail`; the embedding ends iteration there.) -/
def Parser.next (fuel : Nat) (p : Parser) : Option (Option (Event × Parser)) :=
  if p.tree.cur = NIL then
    match p.tree.spine.getLast? with
    | some cur =>
      match item_to_tag (p.tree.node cur).item with
      | some tag =>
        let t := { p.tree with spine := p.tree.spine.dropLast,
                               cur := (p.tree.node cur).next }
        some (some (Event.End tag, { p with tree := t }))
      | none => some none
    | none => some none
  else
    match (p.tree.node p.tree.cur).item.body with
    | ItemBody.Inline _ _ _ | ItemBody.MaybeHtml | ItemBody.MaybeCode _
    | ItemBody.MaybeLinkOpen | ItemBody.MaybeLinkClose =>
      match handle_inline fuel p.tree p.text with
      | none => none
      | some t1 => some (some (Parser.step_tail { p with tree := t1 }))
    | ItemBody.Backslash =>
      let t1 := { p.tree with cur := (p.tree.node p.tree.cur).next }
      some (some (Parser.step_tail { p with tree := t1 }))
    | _ => some (some (Parser.step_tail p))

/-- Iterate the parser to completion, collecting the events (fuel-bounded
driver for the Rust `for`-loop over the iterator). -/
def Parser.events : Nat → Parser → Option (List Event)
  | 0, _ => none
  | fuel + 1, p =>
    match Parser.next (fuel + 1) p with
    | none => none
    | some none => some []
    | some (some (e, p1)) =>
      match Parser.events fuel p1 with
      | none => none
      | some es => some (e :: es)

/-- Parse a byte text and produce its full event stream (fuel-bounded). -/
def parseEvents (fuel : Nat) (text : Bytes) : Option (List Event) :=
  match Parser.new fuel text with
  | none => none
  | some p => Parser.events fuel p


/-!  Claim theorems. -/

/-- C10: for every input text, every fuel and every pair of `Options`
values, `Parser::new_ext` produces identical parsers (and hence identical
event streams), and agrees with `Parser::new`: the options argument has no
effect on parsing. -/
theorem c10_new_ext_ignores_options (fuel : Nat) (text : Bytes)
    (o1 o2 : Options) :
    Parser.new_ext fuel text o1 = Parser.new_ext fuel text o2 ∧
    Parser.new_ext fuel text o1 = Parser.new fuel text ∧
    ∀ efuel : Nat,
      (Parser.new_ext fuel text o1).bind (Parser.events efuel) =
        (Parser.new_ext fuel text o2).bind (Parser.events efuel) :=
  ⟨rfl, rfl, fun _ => rfl⟩

/-!  C1 / C8: the loop of `parse_fenced_code_block` has no end-of-input
exit (unlike the indented-code-block and HTML-block loops), so an
unterminated fenced code block makes the first pass loop forever.  The two
inputs below witness this: `"```\nx"` (final line lacking a newline) and
`"```\n"` (unterminated fence). -/

/-- The five bytes of the input `"```\nx"`. -/
def c1text : Bytes := [96, 96, 96, 10, 120]

/-- The first-pass state `parse_fenced_code_block` reaches on `c1text`
after appending the fence node (scan position 4, the content line). -/
def c1fpFence : FirstPass :=
  ⟨c1text,
   ⟨[⟨⟨0, 0, ItemBody.FencedCodeBlock []⟩, NIL, NIL⟩], [0], NIL⟩,
   false⟩

/-- The first-pass state reached after consuming the content line `x`: the
scan position 5 is the end of the input, and the loop never leaves this
state. -/
def c1fpStuck : FirstPass :=
  ⟨c1text,
   ⟨[⟨⟨0, 0, ItemBody.FencedCodeBlock []⟩, 1, NIL⟩,
     ⟨⟨4, 5, ItemBody.Text⟩, NIL, NIL⟩],
    [0], 1⟩,
   false⟩

theorem c1_stuck_none : ∀ f, FirstPass.fenced_loop 0 96 3 f c1fpStuck 5 = none := by
  intro f
  induction f with
  | zero => rfl
  | succ g ih =>
    calc FirstPass.fenced_loop 0 96 3 (g + 1) c1fpStuck 5
        = FirstPass.fenced_loop 0 96 3 g c1fpStuck 5 := rfl
      _ = none := ih

theorem c1_fence_none : ∀ f, FirstPass.fenced_loop 0 96 3 f c1fpFence 4 = none := by
  intro f
  match f with
  | 0 => rfl
  | g + 1 =>
    calc FirstPass.fenced_loop 0 96 3 (g + 1) c1fpFence 4
        = FirstPass.fenced_loop 0 96 3 g c1fpStuck 5 := rfl
      _ = none := c1_stuck_none g

theorem c1_block_none : ∀ f, FirstPass.parse_block f (FirstPass.new c1text) 0 = none := by
  intro f
  match f with
  | 0 => rfl
  | g + 1 =>
    have h2 : FirstPass.parse_block (g + 1) (FirstPass.new c1text) 0 =
        (match FirstPass.fenced_loop 0 96 3 (g + 1) c1fpFence 4 with
         | none => none
         | some (ix2, fp2) =>
           match fp2.pop (g + 1) ix2 with
           | none => none
           | some fp3 => some (ix2, fp3)) := rfl
    rw [h2, c1_fence_none (g + 1)]

theorem c1_run_none : ∀ f, FirstPass.run f (FirstPass.new c1text) = none := by
  intro f
  match f with
  | 0 => rfl
  | g + 1 =>
    have hloop : FirstPass.run_loop (g + 1) (FirstPass.new c1text) 0 = none := by
      have h2 : FirstPass.run_loop (g + 1) (FirstPass.new c1text) 0 =
          (match FirstPass.parse_block g (FirstPass.new c1text) 0 with
           | none => none
           | some (ix2, fp2) => FirstPass.run_loop g fp2 ix2) := rfl
      rw [h2, c1_block_none g]
    unfold FirstPass.run
    rw [hloop]

/-- C1: refuted at the input `"```\nx"` (a fenced code block whose final
line lacks a trailing newline): the first pass never terminates — the
fenced-code-block loop has no end-of-input exit — so constructing the
`Parser` diverges and no finite event stream is produced, at every fuel
bound. -/
theorem c1_parser_total_refuted :
    ∀ fuel : Nat, Parser.new fuel c1text = none ∧ parseEvents fuel c1text = none := by
  intro fuel
  have h := c1_run_none fuel
  refine ⟨?_, ?_⟩
  · unfold Parser.new Parser.new_ext
    rw [h]
  · unfold parseEvents Parser.new Parser.new_ext
    rw [h]

/-- The four bytes of the input `"```\n"` (an unterminated fence). -/
def c8text : Bytes := [96, 96, 96, 10]

/-- The state `parse_fenced_code_block` reaches on `c8text`: position 4 is
the end of input and the loop never leaves this state. -/
def c8fpStuck : FirstPass :=
  ⟨c8text,
   ⟨[⟨⟨0, 0, ItemBody.FencedCodeBlock []⟩, NIL, NIL⟩], [0], NIL⟩,
   false⟩

theorem c8_stuck_none : ∀ f, FirstPass.fenced_loop 0 96 3 f c8fpStuck 4 = none := by
  intro f
  induction f with
  | zero => rfl
  | succ g ih =>
    calc FirstPass.fenced_loop 0 96 3 (g + 1) c8fpStuck 4
        = FirstPass.fenced_loop 0 96 3 g c8fpStuck 4 := rfl
      _ = none := ih

theorem c8_block_none : ∀ f, FirstPass.parse_block f (FirstPass.new c8text) 0 = none := by
  intro f
  match f with
  | 0 => rfl
  | g + 1 =>
    have h2 : FirstPass.parse_block (g + 1) (FirstPass.new c8text) 0 =
        (match FirstPass.fenced_loop 0 96 3 (g + 1) c8fpStuck 4 with
         | none => none
         | some (ix2, fp2) =>
           match fp2.pop (g + 1) ix2 with
           | none => none
           | some fp3 => some (ix2, fp3)) := rfl
    rw [h2, c8_stuck_none (g + 1)]

/-- C8: the closing-fence condition is as claimed on terminated fences (see
the accompanying development), but the second half of the claim is refuted:
a fenced code block whose closing fence never appears is *not* closed at
the end of the input — on `"```\n"` the first pass loops forever at every
fuel bound, because the loop of `parse_fenced_code_block` has no
end-of-input exit. -/
theorem c8_eof_close_refuted :
    ∀ fuel : Nat, Parser.new fuel c8text = none ∧ parseEvents fuel c8text = none := by
  intro fuel
  have hrun : FirstPass.run fuel (FirstPass.new c8text) = none := by
    match fuel with
    | 0 => rfl
    | g + 1 =>
      have hloop : FirstPass.run_loop (g + 1) (FirstPass.new c8text) 0 = none := by
        have h2 : FirstPass.run_loop (g + 1) (FirstPass.new c8text) 0 =
            (match FirstPass.parse_block g (FirstPass.new c8text) 0 with
             | none => none
             | some (ix2, fp2) => FirstPass.run_loop g fp2 ix2) := rfl
        rw [h2, c8_block_none g]
      unfold FirstPass.run
      rw [hloop]
  refine ⟨?_, ?_⟩
  · unfold Parser.new Parser.new_ext
    rw [hrun]
  · unfold parseEvents Parser.new Parser.new_ext
    rw [hrun]


/-!  Small arena lemmas: node updates change only the targeted field. -/

theorem Tree.node_setNode_eq (t : Tree) (a : Nat) (n : Node)
    (h : a < t.nodes.length) : ((t.setNode a n).node a) = n := by
  simp [Tree.setNode, Tree.node, List.getD_eq_getElem?_getD, List.getElem?_set, h]

theorem Tree.node_setNode_ne (t : Tree) (a i : Nat) (n : Node) (h : i ≠ a) :
    ((t.setNode a n).node i) = t.node i := by
  have hne : a ≠ i := Ne.symm h
  simp [Tree.setNode, Tree.node, List.getD_eq_getElem?_getD, List.getElem?_set, hne]

theorem Tree.node_setNext_item (t : Tree) (a b i : Nat) :
    ((t.setNext a b).node i).item = (t.node i).item := by
  by_cases hi : i = a
  · subst hi
    by_cases hl : i < t.nodes.length
    · rw [Tree.setNext, Tree.node_setNode_eq t i _ hl]
    · rw [Tree.setNext, Tree.setNode,
        List.set_eq_of_length_le (Nat.le_of_not_lt hl)]
  · rw [Tree.setNext, Tree.node_setNode_ne t a i _ hi]

theorem Tree.node_setChild_item (t : Tree) (a b i : Nat) :
    ((t.setChild a b).node i).item = (t.node i).item := by
  by_cases hi : i = a
  · subst hi
    by_cases hl : i < t.nodes.length
    · rw [Tree.setChild, Tree.node_setNode_eq t i _ hl]
    · rw [Tree.setChild, Tree.setNode,
        List.set_eq_of_length_le (Nat.le_of_not_lt hl)]
  · rw [Tree.setChild, Tree.node_setNode_ne t a i _ hi]

theorem Tree.node_setNext_body (t : Tree) (a b i : Nat) :
    ((t.setNext a b).node i).item.body = (t.node i).item.body := by
  rw [Tree.node_setNext_item]

theorem Tree.node_setChild_body (t : Tree) (a b i : Nat) :
    ((t.setChild a b).node i).item.body = (t.node i).item.body := by
  rw [Tree.node_setChild_item]

theorem Tree.node_setStart_body (t : Tree) (a v i : Nat) :
    ((t.setStart a v).node i).item.body = (t.node i).item.body := by
  by_cases hi : i = a
  · subst hi
    by_cases hl : i < t.nodes.length
    · rw [Tree.setStart, Tree.setItem, Tree.node_setNode_eq t i _ hl]
    · rw [Tree.setStart, Tree.setItem, Tree.setNode,
        List.set_eq_of_length_le (Nat.le_of_not_lt hl)]
  · rw [Tree.setStart, Tree.setItem, Tree.node_setNode_ne t a i _ hi]

theorem Tree.length_setNode (t : Tree) (a : Nat) (n : Node) :
    (t.setNode a n).nodes.length = t.nodes.length := List.length_set ..

theorem Tree.node_setBody_self (t : Tree) (a : Nat) (b : ItemBody)
    (h : a < t.nodes.length) : ((t.setBody a b).node a).item.body = b := by
  rw [Tree.setBody, Tree.setItem, Tree.node_setNode_eq t a _ h]

/-- Enumerate a sibling chain as the list of its node indices (`NIL` ends
the chain; `none` is fuel exhaustion). -/
def chain_list (t : Tree) : Nat → Nat → Option (List Nat)
  | 0, _ => none
  | fuel + 1, ix =>
    if ix = NIL then some []
    else
      match chain_list t fuel (t.node ix).next with
      | none => none
      | some l => some (ix :: l)

theorem chain_list_not_nil (t : Tree) :
    ∀ fuel ix l, chain_list t fuel ix = some l → NIL ∉ l := by
  intro fuel
  induction fuel with
  | zero => intro ix l h; exact Option.noConfusion h
  | succ g ih =>
    intro ix l h
    by_cases hix : ix = NIL
    · simp [chain_list, hix] at h
      subst h
      simp
    · simp only [chain_list, hix, if_false] at h
      cases hrec : chain_list t g (t.node ix).next with
      | none => rw [hrec] at h; simp at h
      | some l' =>
        rw [hrec] at h
        simp at h
        subst h
        intro hmem
        rcases List.mem_cons.mp hmem with h1 | h2
        · exact hix h1.symm
        · exact ih _ _ hrec h2

/-!  C5: the failing code-span chain, produced by the line scanner for the
input `` `a\ `` followed by a newline and a closing backtick: an opening
`MaybeCode(1)`, the text `a`, a backslash `HardBreak`, and the matching
`MaybeCode(1)`. -/

def c5text : Bytes := [96, 97, 92, 10, 96]

def c5tree : Tree :=
  ⟨[⟨⟨0, 1, ItemBody.MaybeCode 1⟩, NIL, 1⟩,
    ⟨⟨1, 2, ItemBody.Text⟩, NIL, 2⟩,
    ⟨⟨2, 4, ItemBody.HardBreak⟩, NIL, 3⟩,
    ⟨⟨4, 5, ItemBody.MaybeCode 1⟩, NIL, NIL⟩],
   [], 0⟩

/-- The tree `make_code_span` produces on `c5tree`: node 4 is the
synthesized-space node the conversion creates for the backslash
`HardBreak`, but the final link cut (`tree.nodes[node].next = NIL`) leaves
it orphaned, so the code span's children are only `Text[1,2)` and
`Text[2,3)`. -/
def c5result : Tree :=
  ⟨[⟨⟨0, 5, ItemBody.Code⟩, 1, NIL⟩,
    ⟨⟨1, 2, ItemBody.Text⟩, NIL, 2⟩,
    ⟨⟨2, 3, ItemBody.Text⟩, NIL, NIL⟩,
    ⟨⟨4, 5, ItemBody.MaybeCode 1⟩, NIL, NIL⟩,
    ⟨⟨3, 4, ItemBody.SynthesizeText [32]⟩, NIL, 3⟩],
   [], 0⟩

/-- C5: refuted on a `HardBreak` that is the last content item of the code
span: `make_code_span` on the matching pair (nodes 0 and 3) of the chain
for `` `a\ ``⏎`` ` `` turns the backslash `HardBreak` into `Text [2,3)` and
creates the synthesized-space node (node 4), but then cuts the chain at
the converted node, orphaning the space: the resulting child chain is
`[Text[1,2), Text[2,3)]` with no synthesized space after the backslash
text, and the whole parse of `` `a\ ``⏎`` ` ``⏎ emits no space inside the
code span.  The claim (and the spec) say the backslash text is followed by
a synthesized-space node. -/
theorem c5_trailing_backslash_space_dropped :
    make_code_span 10 c5tree c5text 0 3 = some c5result ∧
    chain_list c5result 10 (c5result.node 0).child = some [1, 2] ∧
    (c5result.node 2).item = ⟨2, 3, ItemBody.Text⟩ ∧
    (c5result.node 2).next = NIL ∧
    (c5result.node 4).item.body = ItemBody.SynthesizeText [32] ∧
    parseEvents 50 [96, 97, 92, 10, 96, 10] =
      some [Event.Start Tag.Paragraph, Event.Start Tag.Code, Event.Text [97],
        Event.Text [92], Event.End Tag.Code, Event.End Tag.Paragraph] := by
  refine ⟨by decide, by decide, rfl, rfl, rfl, by decide⟩

/-!  C6: the `MaybeCode` arm of pass 1 scans forward for the first sibling
with a `MaybeCode` of exactly the same count. -/

theorem maybe_code_scan_eq_find (t : Tree) (count : Nat) :
    ∀ fuel first l, chain_list t fuel first = some l →
      maybe_code_scan t count fuel first =
        some ((l.find? fun j => (t.node j).item.body == ItemBody.MaybeCode count).getD NIL) := by
  intro fuel
  induction fuel with
  | zero => intro first l h; exact Option.noConfusion h
  | succ g ih =>
    intro first l h
    by_cases hfirst : first = NIL
    · simp [chain_list, hfirst] at h
      subst h
      simp [maybe_code_scan, hfirst]
    · simp only [chain_list, hfirst, if_false] at h
      cases hrec : chain_list t g (t.node first).next with
      | none => rw [hrec] at h; simp at h
      | some l' =>
        rw [hrec] at h
        simp at h
        subst h
        by_cases hbody : (t.node first).item.body = ItemBody.MaybeCode count
        · simp [maybe_code_scan, hfirst, hbody, List.find?_cons]
        · have hb2 : ((t.node first).item.body == ItemBody.MaybeCode count) = false := by
            simp [hbody]
          simp only [maybe_code_scan, hfirst, if_false, hbody, List.find?_cons, hb2]
          exact ih _ _ hrec

/-- C6: during inline pass 1, a `MaybeCode(n)` node is resolved by scanning
its sibling chain for the first sibling that is a `MaybeCode` with exactly
the same count: when one exists `make_code_span` is invoked on the pair,
and when none exists before the end of the chain the originating node is
rewritten to `Text`.  (The hypothesis enumerates the sibling chain, i.e.
the chain is finite within the given fuel.) -/
theorem c6_maybe_code_resolution (fuel : Nat) (t : Tree) (s : Bytes)
    (cur count : Nat) (l : List Nat)
    (h : chain_list t fuel ((t.node cur).next) = some l) :
    handle_maybe_code fuel t s cur count =
      match l.find? (fun j => (t.node j).item.body == ItemBody.MaybeCode count) with
      | some m => make_code_span fuel t s cur m
      | none => some (t.setBody cur ItemBody.Text) := by
  have hun : handle_maybe_code fuel t s cur count =
      (match maybe_code_scan t count fuel ((t.node cur).next) with
       | none => none
       | some scan =>
         if scan = NIL then some (t.setBody cur ItemBody.Text)
         else make_code_span fuel t s cur scan) := rfl
  rw [hun, maybe_code_scan_eq_find t count fuel _ l h]
  cases hf : l.find? (fun j => (t.node j).item.body == ItemBody.MaybeCode count) with
  | none => simp
  | some m =>
    have hm : m ∈ l := List.mem_of_find?_eq_some hf
    have hne : m ≠ NIL := fun he => (chain_list_not_nil t fuel _ l h) (he ▸ hm)
    simp [hne]

/-- The chain for the input `` `a``b` ``: the first matching sibling of the
opening `MaybeCode(1)` is node 4, skipping the `MaybeCode(2)` at node 2. -/
def c6text : Bytes := [96, 97, 96, 96, 98, 96]

def c6tree : Tree :=
  ⟨[⟨⟨0, 1, ItemBody.MaybeCode 1⟩, NIL, 1⟩,
    ⟨⟨1, 2, ItemBody.Text⟩, NIL, 2⟩,
    ⟨⟨2, 4, ItemBody.MaybeCode 2⟩, NIL, 3⟩,
    ⟨⟨4, 5, ItemBody.Text⟩, NIL, 4⟩,
    ⟨⟨5, 6, ItemBody.MaybeCode 1⟩, NIL, NIL⟩],
   [], 0⟩

/-- Witness for C6: on the `` `a``b` `` chain the resolution picks node 4
(the first `MaybeCode` with the same count 1, skipping the `MaybeCode 2`)
and invokes `make_code_span` on the pair. -/
theorem c6_maybe_code_resolution_witness :
    handle_maybe_code 10 c6tree c6text 0 1 = make_code_span 10 c6tree c6text 0 4 := by
  have h := c6_maybe_code_resolution 10 c6tree c6text 0 1 [1, 2, 3, 4] (by decide)
  rw [h]
  rfl


/-!  C3: the emphasis pass's opener search and nested-pair emission. -/

/-- The opener-acceptance condition of `InlineStack::find_match`, as a
predicate on stack entries: same character, and not both-sides-flanking
with delimiter counts summing to a multiple of three. -/
def emphOpenerPred (c count : Nat) (both : Bool) (el : InlineEl) : Bool :=
  el.c == c && !((both || el.both) && (count + el.count) % 3 == 0)

theorem find_match_none_spec (c count : Nat) (both : Bool) :
    ∀ stack : List InlineEl, InlineStack.find_match stack c count both = none →
      ∀ el ∈ stack, emphOpenerPred c count both el = false := by
  intro stack
  induction stack with
  | nil => intro _ el hel; exact absurd hel (List.not_mem_nil el)
  | cons hd tl ih =>
    intro h el hel
    unfold InlineStack.find_match at h
    cases hrec : InlineStack.find_match tl c count both with
    | some p => rw [hrec] at h; exact Option.noConfusion h
    | none =>
      rw [hrec] at h
      by_cases hp : hd.c = c ∧ ¬((both ∨ hd.both) ∧ (count + hd.count) % 3 = 0)
      · rw [if_pos hp] at h; exact Option.noConfusion h
      · rw [if_neg hp] at h
        rcases List.mem_cons.mp hel with h1 | h2
        · subst h1
          simp only [emphOpenerPred]
          by_contra hb
          apply hp
          simp only [Bool.not_eq_false] at hb
          simpa [emphOpenerPred, -Bool.not_and] using hb
        · exact ih hrec el h2

theorem find_match_some_spec (c count : Nat) (both : Bool) :
    ∀ (stack : List InlineEl) (j : Nat) (el : InlineEl),
      InlineStack.find_match stack c count both = some (j, el) →
      stack.get? j = some el ∧ emphOpenerPred c count both el = true ∧
        ∀ k el', j < k → stack.get? k = some el' →
          emphOpenerPred c count both el' = false := by
  intro stack
  induction stack with
  | nil => intro j el h; exact Option.noConfusion h
  | cons hd tl ih =>
    intro j el h
    unfold InlineStack.find_match at h
    cases hrec : InlineStack.find_match tl c count both with
    | some p =>
      rw [hrec] at h
      simp only [Option.some.injEq, Prod.mk.injEq] at h
      obtain ⟨hj, hel⟩ := h
      obtain ⟨hget, hpred, habove⟩ := ih p.1 p.2 (by rw [hrec])
      subst hel
      constructor
      · rw [← hj]; simpa using hget
      · refine ⟨hpred, ?_⟩
        intro k el' hk hget'
        match k, hk with
        | kk + 1, hk =>
          have : tl.get? kk = some el' := by simpa using hget'
          exact habove kk el' (by omega) this
    | none =>
      rw [hrec] at h
      by_cases hp : hd.c = c ∧ ¬((both ∨ hd.both) ∧ (count + hd.count) % 3 = 0)
      · rw [if_pos hp] at h
        simp only [Option.some.injEq, Prod.mk.injEq] at h
        obtain ⟨hj, hel⟩ := h
        subst hel
        refine ⟨by rw [← hj]; rfl, by simpa [emphOpenerPred, -Bool.not_and] using hp, ?_⟩
        intro k el' hk hget'
        match k, hk with
        | kk + 1, _ =>
          have : tl.get? kk = some el' := by simpa using hget'
          exact find_match_none_spec c count both tl hrec el' (List.get?_mem this)
      · rw [if_neg hp] at h
        exact Option.noConfusion h

theorem emitSchedule_spec : ∀ m, emitSchedule m =
    List.replicate (m / 2) (2, ItemBody.Strong) ++
      (if m % 2 = 1 then [(1, ItemBody.Emphasis)] else []) := by
  intro m
  induction m using Nat.strong_induction_on with
  | _ m ih =>
    match m with
    | 0 => rfl
    | 1 => rfl
    | k + 2 =>
      have hstep : emitSchedule (k + 2) = (2, ItemBody.Strong) :: emitSchedule k := rfl
      rw [hstep, ih k (by omega)]
      have h2 : (k + 2) / 2 = k / 2 + 1 := by omega
      have h3 : (k + 2) % 2 = k % 2 := by omega
      rw [h2, h3, List.replicate_succ]
      rfl

/-- C3: in the emphasis pass, (a) a successful `find_match` returns the
nearest (topmost) stack entry with the same delimiter character for which
it is not the case that one side can both open and close and the counts
sum to a multiple of three — the returned entry satisfies the condition
and every entry above it fails it, and a failed search means no entry
satisfies it; (b) the matched delimiters are emitted greedily as nested
pairs, pairs of two as `Strong` and a remainder of one as `Emphasis`; and
(c) the schedule emitted for the matched length `min n opener.count` (as
computed in `emphCloserLoop`) consumes exactly that many delimiters. -/
theorem c3_emphasis_matching :
    (∀ (stack : List InlineEl) (c count : Nat) (both : Bool) (j : Nat) (el : InlineEl),
       InlineStack.find_match stack c count both = some (j, el) →
       stack.get? j = some el ∧ emphOpenerPred c count both el = true ∧
         ∀ k el', j < k → stack.get? k = some el' →
           emphOpenerPred c count both el' = false) ∧
    (∀ (stack : List InlineEl) (c count : Nat) (both : Bool),
       InlineStack.find_match stack c count both = none →
       ∀ el ∈ stack, emphOpenerPred c count both el = false) ∧
    (∀ m, emitSchedule m =
       List.replicate (m / 2) (2, ItemBody.Strong) ++
         (if m % 2 = 1 then [(1, ItemBody.Emphasis)] else [])) ∧
    (∀ n ec : Nat, ((emitSchedule (min n ec)).map Prod.fst).sum = min n ec) := by
  refine ⟨fun stack c count both => find_match_some_spec c count both stack,
    fun stack c count both => find_match_none_spec c count both stack,
    emitSchedule_spec, ?_⟩
  intro n ec
  rw [emitSchedule_spec (min n ec)]
  rw [List.map_append, List.sum_append, List.map_replicate, List.sum_replicate]
  by_cases h : (min n ec) % 2 = 1
  · rw [if_pos h]
    simp only [List.map_cons, List.map_nil, List.sum_cons, List.sum_nil, smul_eq_mul]
    omega
  · rw [if_neg h]
    simp only [List.map_nil, List.sum_nil, smul_eq_mul]
    omega

/-- Witness for C3: on the stack holding (bottom to top) a two-star opener
and a one-star both-flanking opener, a both-flanking closing run of two
stars skips the top entry (counts 2 + 1 sum to a multiple of three with
both sides flanking) and matches the bottom entry. -/
theorem c3_emphasis_matching_witness :
    InlineStack.find_match [⟨1, 2, 42, false⟩, ⟨5, 1, 42, true⟩] 42 2 true =
      some (0, ⟨1, 2, 42, false⟩) ∧
    emphOpenerPred 42 2 true ⟨1, 2, 42, false⟩ = true ∧
    emphOpenerPred 42 2 true ⟨5, 1, 42, true⟩ = false ∧
    emitSchedule 3 = [(2, ItemBody.Strong), (1, ItemBody.Emphasis)] := by
  have hfind : InlineStack.find_match [⟨1, 2, 42, false⟩, ⟨5, 1, 42, true⟩] 42 2 true =
      some (0, ⟨1, 2, 42, false⟩) := by decide
  have h := c3_emphasis_matching
  refine ⟨hfind, (h.1 _ 42 2 true 0 _ hfind).2.1, ?_, by decide⟩
  exact (h.1 _ 42 2 true 0 _ hfind).2.2 1 ⟨5, 1, 42, true⟩ (by omega) (by rfl)


/-!  C7: the `MaybeLinkClose` arm of pass 1. -/

/-- C7: in pass 1, a `MaybeLinkClose` with an empty link stack is rewritten
to `Text` (stack left empty); one whose `scan_inline_link` fails is
rewritten to `Text` with the stack untouched; and every successful
resolution turns the top-of-stack open-bracket node into a `Link` and
empties the entire link stack, so no link can be nested inside another
link resolved in the same chain. -/
theorem c7_link_close_empties_stack (fuel : Nat) (t : Tree) (s : Bytes)
    (cur prev : Nat) (stack : List Nat) :
    (stack = [] →
      link_close_step fuel t s cur prev stack =
        some (t.setBody cur ItemBody.Text, cur, stack)) ∧
    (∀ tos sc', stack.getLast? = some tos →
      scan_inline_link fuel (InlineScanner.new t s ((t.node cur).next)) =
        some (none, sc') →
      link_close_step fuel t s cur prev stack =
        some (t.setBody cur ItemBody.Text, cur, stack)) ∧
    (∀ tos url title sc', stack.getLast? = some tos →
      tos < t.nodes.length →
      scan_inline_link fuel (InlineScanner.new t s ((t.node cur).next)) =
        some (some (url, title), sc') →
      ∃ t', link_close_step fuel t s cur prev stack = some (t', tos, []) ∧
        ((t'.node tos).item.body = ItemBody.Link url title)) := by
  have key : ∀ tos, stack.getLast? = some tos →
      link_close_step fuel t s cur prev stack =
        (match scan_inline_link fuel (InlineScanner.new t s ((t.node cur).next)) with
         | none => none
         | some (none, _) => some (t.setBody cur ItemBody.Text, cur, stack)
         | some (some (url, title), scanner) =>
           let (next_node, next_ix) := scanner.to_node_and_ix
           let t1 := t.setNext prev NIL
           let t2 := t1.setBody tos (ItemBody.Link url title)
           let t3 := t2.setChild tos (t2.node tos).next
           let t4 := t3.setNext tos next_node
           let t5 := if next_node ≠ NIL then t4.setStart next_node next_ix else t4
           some (t5, tos, [])) := by
    intro tos htos
    unfold link_close_step
    rw [htos]
  refine ⟨?_, ?_, ?_⟩
  · intro hempty
    subst hempty
    rfl
  · intro tos sc' htos hscan
    rw [key tos htos, hscan]
  · intro tos url title sc' htos hlen hscan
    rw [key tos htos, hscan]
    refine ⟨_, rfl, ?_⟩
    have hlen1 : tos < ((t.setNext prev NIL).nodes.length) := by
      rw [show ((t.setNext prev NIL).nodes.length) = t.nodes.length from
        Tree.length_setNode ..]
      exact hlen
    split <;> split <;>
      first
      | rw [Tree.node_setStart_body, Tree.node_setNext_body, Tree.node_setChild_body,
          Tree.node_setBody_self _ _ _ hlen1]
      | rw [Tree.node_setNext_body, Tree.node_setChild_body,
          Tree.node_setBody_self _ _ _ hlen1]

/-- The chain for the paragraph `[a](b)`, as pass 1 sees it when the walk
reaches the `MaybeLinkClose` at node 2: node 0 is the open bracket already
rewritten to `Text` and pushed on the link stack, node 3 carries the
`(b)` text. -/
def c7text : Bytes := [91, 97, 93, 40, 98, 41]

def c7tree : Tree :=
  ⟨[⟨⟨0, 1, ItemBody.Text⟩, NIL, 1⟩,
    ⟨⟨1, 2, ItemBody.Text⟩, NIL, 2⟩,
    ⟨⟨2, 3, ItemBody.MaybeLinkClose⟩, NIL, 3⟩,
    ⟨⟨3, 6, ItemBody.Text⟩, NIL, NIL⟩],
   [], 0⟩

/-- Witness for C7: on the `[a](b)` chain with link stack `[0]`, the scan
succeeds with destination `b` and empty title, and the arm empties the
link stack, leaving node 0 a `Link`. -/
theorem c7_link_close_empties_stack_witness :
    ∃ t', link_close_step 64 c7tree c7text 2 1 [0] = some (t', 0, []) ∧
      ((t'.node 0).item.body = ItemBody.Link [98] []) := by
  refine (c7_link_close_empties_stack 64 c7tree c7text 2 1 [0]).2.2 0 [98] []
    ?sc rfl (by decide) ?_
  case sc => exact (scan_inline_link 64
    (InlineScanner.new c7tree c7text ((c7tree.node 2).next))).get (by decide) |>.2
  rfl


/-!  Supporting lemmas for the line-scanner theorems (C2, C4): the item
list of the arena grows by exactly the appended items, leading-run
characterizations, the first newline at or after a position, and the
whitespace backtrack. -/

theorem List.set_self_getElem {α : Type} (l : List α) (i : Nat) (h : i < l.length) :
    l.set i l[i] = l := by
  apply List.ext_getElem?
  intro j
  rw [List.getElem?_set]
  split
  · next he => subst he; simp [h, List.getElem?_eq_getElem h]
  · rfl

theorem Tree.items_setNode (t : Tree) (a : Nat) (n : Node)
    (h : n.item = (t.node a).item) : (t.setNode a n).items = t.items := by
  by_cases hl : a < t.nodes.length
  · have hnode : (t.node a).item = (t.nodes.get ⟨a, hl⟩).item := by
      simp [Tree.node, List.getD_eq_getElem?_getD, List.getElem?_eq_getElem hl]
    simp only [Tree.setNode, Tree.items, List.map_set, h, hnode]
    have hlen : a < (t.nodes.map Node.item).length := by simpa using hl
    have hgi : (t.nodes.map Node.item)[a] = (t.nodes.get ⟨a, hl⟩).item := by
      simp
    rw [← hgi, List.set_self_getElem _ a hlen]
  · rw [Tree.setNode, List.set_eq_of_length_le (Nat.le_of_not_lt hl)]

theorem Tree.items_setNext (t : Tree) (a b : Nat) :
    (t.setNext a b).items = t.items :=
  Tree.items_setNode t a _ rfl

theorem Tree.items_setChild (t : Tree) (a b : Nat) :
    (t.setChild a b).items = t.items :=
  Tree.items_setNode t a _ rfl

theorem Tree.items_append (t : Tree) (it : Item) :
    (t.append it).items = t.items ++ [it] := by
  have hbase : (Tree.mk (t.nodes ++ [⟨it, NIL, NIL⟩]) t.spine t.cur).items =
      t.items ++ [it] := by
    simp [Tree.items]
  unfold Tree.append Tree.create_node
  dsimp only
  by_cases hc : t.cur ≠ NIL
  · rw [if_pos hc]
    show (Tree.setNext ⟨t.nodes ++ [⟨it, NIL, NIL⟩], t.spine, t.cur⟩ t.cur
      t.nodes.length).items = t.items ++ [it]
    rw [Tree.items_setNext]
    exact hbase
  · rw [if_neg hc]
    cases hsp : t.spine.getLast? with
    | some parent =>
      show (Tree.setChild ⟨t.nodes ++ [⟨it, NIL, NIL⟩], t.spine, t.cur⟩ parent
        t.nodes.length).items = t.items ++ [it]
      rw [Tree.items_setChild]
      exact hbase
    | none => exact hbase

theorem Tree.items_append_text (t : Tree) (a b : Nat) :
    (t.append_text a b).items =
      t.items ++ (if a < b then [⟨a, b, ItemBody.Text⟩] else []) := by
  unfold Tree.append_text
  by_cases h : b > a
  · rw [if_pos h, if_pos h, Tree.items_append]
  · rw [if_neg h, if_neg (by omega : ¬ a < b)]
    simp

theorem Tree.items_foldl_append (xs : List Nat) (f : Nat → Item) :
    ∀ t : Tree, (xs.foldl (fun tt x => tt.append (f x)) t).items =
      t.items ++ xs.map f := by
  induction xs with
  | nil => intro t; simp
  | cons hd tl ih =>
    intro t
    simp only [List.foldl_cons, List.map_cons]
    rw [ih, Tree.items_append]
    simp

theorem Tree.items_appendInlineRun (t : Tree) (ix count : Nat) (o c : Bool) :
    (t.appendInlineRun ix count o c).items =
      t.items ++ (List.range count).map
        (fun i => ⟨ix + i, ix + i + 1, ItemBody.Inline (count - i) o c⟩) := by
  unfold Tree.appendInlineRun
  exact Tree.items_foldl_append (List.range count) _ t

theorem scan_ch_repeat_le (c : Nat) : ∀ l : Bytes, scan_ch_repeat l c ≤ l.length := by
  intro l
  induction l with
  | nil => simp [scan_ch_repeat]
  | cons hd tl ih =>
    by_cases h : hd = c
    · subst h
      rw [scan_ch_repeat, if_pos rfl]
      simp only [List.length_cons]
      omega
    · rw [scan_ch_repeat, if_neg h]
      simp only [List.length_cons]
      omega

theorem scan_ch_repeat_spec (c : Nat) :
    ∀ l : Bytes, ∀ k, k < scan_ch_repeat l c → l.getD k 0 = c := by
  intro l
  induction l with
  | nil => intro k h; simp [scan_ch_repeat] at h
  | cons hd tl ih =>
    intro k h
    by_cases hh : hd = c
    · subst hh
      match k with
      | 0 => rfl
      | kk + 1 =>
        rw [scan_ch_repeat, if_pos rfl] at h
        exact ih kk (by omega)
    · rw [scan_ch_repeat, if_neg hh] at h
      omega

theorem byteAt_drop (s : Bytes) (m k : Nat) : byteAt (s.drop m) k = byteAt s (m + k) := by
  simp [byteAt, List.getD_eq_getElem?_getD, List.getElem?_drop]

/-- First newline (`\n` or `\r`) at or after a position (auxiliary walk over
the remaining bytes). -/
def findNlAux : Bytes → Nat → Option Nat
  | [], _ => none
  | b :: rest, i => if b = 10 ∨ b = 13 then some i else findNlAux rest (i + 1)

/-- Index of the first newline byte at or after `ix`, if any. -/
def findNl (s : Bytes) (ix : Nat) : Option Nat := findNlAux (s.drop ix) ix

theorem findNl_step (s : Bytes) (ix : Nat) (h : ix < s.length) :
    findNl s ix =
      if byteAt s ix = 10 ∨ byteAt s ix = 13 then some ix else findNl s (ix + 1) := by
  unfold findNl
  rw [List.drop_eq_getElem_cons h]
  have : byteAt s ix = s[ix] := by
    simp [byteAt, List.getD_eq_getElem?_getD, List.getElem?_eq_getElem h]
  rw [findNlAux, this]

theorem findNl_stop (s : Bytes) (ix : Nat) (h : ¬ ix < s.length) :
    findNl s ix = none := by
  unfold findNl
  rw [List.drop_eq_nil_of_le (by omega), findNlAux]

theorem findNl_skip (s : Bytes) (ix : Nat)
    (h : ¬(byteAt s ix = 10 ∨ byteAt s ix = 13)) :
    findNl s ix = findNl s (ix + 1) := by
  by_cases hlt : ix < s.length
  · rw [findNl_step s ix hlt, if_neg h]
  · rw [findNl_stop s ix hlt, findNl_stop s (ix + 1) (by omega)]

theorem findNl_skip_range (s : Bytes) :
    ∀ k ix, (∀ j, ix ≤ j → j < ix + k → ¬(byteAt s j = 10 ∨ byteAt s j = 13)) →
      findNl s ix = findNl s (ix + k) := by
  intro k
  induction k with
  | zero => intro ix _; rfl
  | succ kk ih =>
    intro ix hj
    rw [findNl_skip s ix (hj ix (le_refl ix) (by omega))]
    have := ih (ix + 1) (fun j h1 h2 => hj j (by omega) (by omega))
    rw [this]
    congr 1
    omega

theorem findNlAux_some :
    ∀ (l : Bytes) (i nl : Nat), findNlAux l i = some nl →
      i ≤ nl ∧ nl < i + l.length ∧ (l.getD (nl - i) 0 = 10 ∨ l.getD (nl - i) 0 = 13) := by
  intro l
  induction l with
  | nil => intro i nl h; exact Option.noConfusion h
  | cons b rest ih =>
    intro i nl h
    rw [findNlAux] at h
    by_cases hb : b = 10 ∨ b = 13
    · rw [if_pos hb] at h
      have : i = nl := Option.some.inj h
      subst this
      simpa using hb
    · rw [if_neg hb] at h
      obtain ⟨h1, h2, h3⟩ := ih (i + 1) nl h
      refine ⟨by omega, by simp; omega, ?_⟩
      have hsub : nl - i = (nl - (i + 1)) + 1 := by omega
      rw [hsub]
      simpa using h3

theorem findNl_some (s : Bytes) (ix nl : Nat) (h : findNl s ix = some nl) :
    ix ≤ nl ∧ nl < s.length ∧ (byteAt s nl = 10 ∨ byteAt s nl = 13) := by
  obtain ⟨h1, h2, h3⟩ := findNlAux_some (s.drop ix) ix nl h
  have hb : byteAt (s.drop ix) (nl - ix) = byteAt s nl := by
    rw [byteAt_drop]
    congr 1
    omega
  refine ⟨h1, ?_, ?_⟩
  · rw [List.length_drop] at h2
    omega
  · rw [show (List.drop ix s).getD (nl - ix) 0 = byteAt (s.drop ix) (nl - ix) from rfl] at h3
    rw [hb] at h3
    exact h3

theorem trim_ws_le (s : Bytes) : ∀ i, trim_ws s i ≤ i := by
  intro i
  induction i with
  | zero => simp [trim_ws]
  | succ k ih =>
    rw [trim_ws]
    split
    · omega
    · omega

theorem trim_ws_ws (s : Bytes) :
    ∀ i j, trim_ws s i ≤ j → j < i → is_ascii_whitespace_no_nl (byteAt s j) = true := by
  intro i
  induction i with
  | zero => intro j _ h2; omega
  | succ k ih =>
    intro j h1 h2
    rw [trim_ws] at h1
    by_cases hw : is_ascii_whitespace_no_nl (byteAt s k) = true
    · rw [if_pos hw] at h1
      by_cases hjk : j = k
      · subst hjk; exact hw
      · exact ih j h1 (by omega)
    · rw [if_neg hw] at h1
      omega

theorem punct_not_nl {c : Nat} (h : is_ascii_punctuation c = true) :
    ¬(c = 10 ∨ c = 13) := by
  simp only [is_ascii_punctuation, Bool.or_eq_true, Bool.and_eq_true,
    decide_eq_true_eq] at h
  omega

theorem ws_of_wsnn {c : Nat} (h : is_ascii_whitespace_no_nl c = true) :
    is_ascii_whitespace c = true := by
  simp only [is_ascii_whitespace_no_nl, is_ascii_whitespace, Bool.or_eq_true,
    Bool.and_eq_true, beq_iff_eq, decide_eq_true_eq] at h ⊢
  omega

theorem stop_le_trim (s : Bytes) (nl : Nat)
    (hnl1 : is_ascii_whitespace_no_nl (byteAt s (nl - 1)) = true)
    (hnl2 : is_ascii_whitespace_no_nl (byteAt s (nl - 2)) = true)
    (h2le : 2 ≤ nl) (e w : Nat) (hw : w + 1 = e ∨ w = e)
    (hnw : is_ascii_whitespace_no_nl (byteAt s w) = false) (hwlt : w < nl) :
    e ≤ trim_ws s (nl - 2) := by
  have hall : ∀ j, trim_ws s (nl - 2) ≤ j → j < nl →
      is_ascii_whitespace_no_nl (byteAt s j) = true := by
    intro j hj1 hj2
    by_cases hj3 : j < nl - 2
    · exact trim_ws_ws s (nl - 2) j hj1 hj3
    · by_cases hj4 : j = nl - 2
      · rw [hj4]; exact hnl2
      · have : j = nl - 1 := by omega
        rw [this]; exact hnl1
  by_contra hcon
  have he : trim_ws s (nl - 2) < e := by omega
  have : trim_ws s (nl - 2) ≤ w := by omega
  rw [hall w this hwlt] at hnw
  exact Bool.noConfusion hnw

/-!  C2 / C4: the line scanner's emphasis-run flags and break
classification. -/

/-- C2's per-item property: an `Inline` marker emitted by `parse_line`
belongs to a scanned delimiter run starting at `rs` of length `cnt`, and
its flags are computed by the flanking formulas at that run. -/
def inlineRunProp (s : Bytes) (start : Nat) (it : Item) : Prop :=
  ∀ rem o c, it.body = ItemBody.Inline rem o c →
    ∃ rs cnt, rs ≤ it.start ∧ it.start < rs + cnt ∧ it.start + rem = rs + cnt ∧
      it.stop = it.start + 1 ∧
      (∀ j, rs ≤ j → j < rs + cnt → byteAt s j = byteAt s rs) ∧
      (byteAt s rs = 42 ∨ byteAt s rs = 95) ∧
      o = (decide (rs + cnt < s.length) && !is_ascii_whitespace (byteAt s (rs + cnt))) ∧
      c = (decide (start < rs) && !is_ascii_whitespace (byteAt s (rs - 1)))

/-- C4's break classification, phrased against the position `nl` of the
first newline at or after the scan start: a backslash just before the
newline gives a `HardBreak` covering backslash and newline; otherwise two
trailing non-newline whitespace bytes give a `HardBreak` whose start is
the whitespace-backtrack point; otherwise a `SoftBreak`. -/
def lineResultSpec (s : Bytes) (start : Nat) (nlOpt : Option Nat) (ix' : Nat)
    (brk : Option Item) : Prop :=
  match nlOpt with
  | none => brk = none ∧ ix' = s.length
  | some nl =>
    ix' = nl + (scan_eol (s.drop nl)).1 ∧
    (if start < nl ∧ byteAt s (nl - 1) = 92 then
       brk = some ⟨nl - 1, nl + (scan_eol (s.drop nl)).1, ItemBody.HardBreak⟩
     else if start + 2 ≤ nl ∧ is_ascii_whitespace_no_nl (byteAt s (nl - 1)) = true ∧
         is_ascii_whitespace_no_nl (byteAt s (nl - 2)) = true then
       brk = some ⟨trim_ws s (nl - 2), nl + (scan_eol (s.drop nl)).1, ItemBody.HardBreak⟩
     else brk = some ⟨nl, nl + (scan_eol (s.drop nl)).1, ItemBody.SoftBreak⟩)

/-- In the trailing-whitespace `HardBreak` case every appended item ends at
or before the backtrack point: the trailing whitespace is trimmed from the
preceding text. -/
def wsCaseBound (s : Bytes) (start : Nat) (nlOpt : Option Nat) (it : Item) : Prop :=
  match nlOpt with
  | none => True
  | some nl =>
    (¬(start < nl ∧ byteAt s (nl - 1) = 92) ∧ start + 2 ≤ nl ∧
      is_ascii_whitespace_no_nl (byteAt s (nl - 1)) = true ∧
      is_ascii_whitespace_no_nl (byteAt s (nl - 2)) = true) →
    it.stop ≤ trim_ws s (nl - 2)

/-- Full specification of one `parse_line_go` computation. -/
def lineOutSpec (s : Bytes) (start : Nat) (nlOpt : Option Nat) (t : Tree)
    (out : Tree × Nat × Option Item) : Prop :=
  ∃ A, out.1.items = t.items ++ A ∧
    (∀ it ∈ A, inlineRunProp s start it ∧ wsCaseBound s start nlOpt it) ∧
    lineResultSpec s start nlOpt out.2.1 out.2.2

theorem lineOutSpec_step (s : Bytes) (start : Nat) (nlOpt : Option Nat)
    (t tmid : Tree) (now : List Item)
    (hmid : tmid.items = t.items ++ now)
    (hnow : ∀ it ∈ now, inlineRunProp s start it ∧ wsCaseBound s start nlOpt it)
    (out : Tree × Nat × Option Item)
    (hrest : lineOutSpec s start nlOpt tmid out) :
    lineOutSpec s start nlOpt t out := by
  obtain ⟨A, hA, hAprop, hres⟩ := hrest
  refine ⟨now ++ A, ?_, ?_, hres⟩
  · rw [hA, hmid, List.append_assoc]
  · intro it hit
    rcases List.mem_append.mp hit with h | h
    · exact hnow it h
    · exact hAprop it h

theorem parse_line_go_master (s : Bytes) (start : Nat) :
    ∀ fuel t beginText ix,
      s.length < fuel + ix → ix ≤ s.length →
      start ≤ beginText → beginText ≤ ix →
      (beginText = start ∨
        (is_ascii_whitespace (byteAt s (beginText - 1)) = false ∧
          (byteAt s (beginText - 1) = 92 → beginText < ix))) →
      lineOutSpec s start (findNl s ix) t (parse_line_go s start fuel t beginText ix) := by
  intro fuel
  induction fuel with
  | zero => intro t bt ix hfuel hle h1 h1b h3; omega
  | succ g ih =>
    intro t bt ix hfuel hle h1 h1b h3
    simp only [parse_line_go]
    by_cases hlt : ix < s.length
    case neg =>
      rw [if_neg hlt]
      have hix : ix = s.length := by omega
      rw [findNl_stop s ix hlt]
      refine ⟨if bt < ix then [⟨bt, ix, ItemBody.Text⟩] else [], ?_, ?_, ?_⟩
      · exact Tree.items_append_text t bt ix
      · intro it hit
        constructor
        · intro rem o c hbody
          split at hit
          · simp at hit
            rw [hit] at hbody
            exact ItemBody.noConfusion hbody
          · simp at hit
        · trivial
      · exact ⟨rfl, hix⟩
    case pos =>
      rw [if_pos hlt]
      by_cases hnl : byteAt s ix = 10 ∨ byteAt s ix = 13
      case pos =>
        rw [if_pos hnl]
        have hfind : findNl s ix = some ix := by
          rw [findNl_step s ix hlt, if_pos hnl]
        rw [hfind]
        by_cases hbs : bt + 1 ≤ ix ∧ byteAt s (ix - 1) = 92
        case pos =>
          rw [if_pos hbs]
          have hS1 : start < ix ∧ byteAt s (ix - 1) = 92 := ⟨by omega, hbs.2⟩
          refine ⟨if bt < ix - 1 then [⟨bt, ix - 1, ItemBody.Text⟩] else [],
            Tree.items_append_text t bt (ix - 1), ?_, ?_⟩
          · intro it hit
            by_cases hbt : bt < ix - 1
            · rw [if_pos hbt] at hit
              simp only [List.mem_singleton] at hit
              subst hit
              exact ⟨fun rem o c hbody => ItemBody.noConfusion hbody,
                fun hcond => absurd hS1 hcond.1⟩
            · rw [if_neg hbt] at hit
              exact absurd hit (List.not_mem_nil it)
          · exact ⟨rfl, by rw [if_pos hS1]⟩
        case neg =>
          by_cases hws : bt + 2 ≤ ix ∧ is_ascii_whitespace_no_nl (byteAt s (ix - 1)) = true ∧
              is_ascii_whitespace_no_nl (byteAt s (ix - 2)) = true
          case pos =>
            rw [if_neg hbs, if_pos hws]
            have hS1 : ¬(start < ix ∧ byteAt s (ix - 1) = 92) := by
              intro hc
              have := hws.2.1
              rw [hc.2] at this
              simp [is_ascii_whitespace_no_nl] at this
            have hS2 : start + 2 ≤ ix ∧ is_ascii_whitespace_no_nl (byteAt s (ix - 1)) = true ∧
                is_ascii_whitespace_no_nl (byteAt s (ix - 2)) = true :=
              ⟨by omega, hws.2.1, hws.2.2⟩
            refine ⟨if bt < trim_ws s (ix - 2) then [⟨bt, trim_ws s (ix - 2), ItemBody.Text⟩] else [],
              Tree.items_append_text t bt (trim_ws s (ix - 2)), ?_, ?_⟩
            · intro it hit
              by_cases hbt : bt < trim_ws s (ix - 2)
              · rw [if_pos hbt] at hit
                simp only [List.mem_singleton] at hit
                subst hit
                exact ⟨fun rem o c hbody => ItemBody.noConfusion hbody, fun _ => le_refl _⟩
              · rw [if_neg hbt] at hit
                exact absurd hit (List.not_mem_nil it)
            · exact ⟨rfl, by rw [if_neg hS1, if_pos hS2]⟩
          case neg =>
            rw [if_neg hbs, if_neg hws]
            have hS1 : ¬(start < ix ∧ byteAt s (ix - 1) = 92) := by
              intro hc
              apply hbs
              refine ⟨?_, hc.2⟩
              rcases h3 with h3 | ⟨h3a, h3b⟩
              · omega
              · by_cases hbtix : bt = ix
                · have h92 : byteAt s (bt - 1) = 92 := by rw [hbtix]; exact hc.2
                  have := h3b h92
                  omega
                · omega
            have hS2 : ¬(start + 2 ≤ ix ∧ is_ascii_whitespace_no_nl (byteAt s (ix - 1)) = true ∧
                is_ascii_whitespace_no_nl (byteAt s (ix - 2)) = true) := by
              intro hc
              apply hws
              refine ⟨?_, hc.2.1, hc.2.2⟩
              rcases h3 with h3 | ⟨h3a, h3b⟩
              · omega
              · by_cases hbtix : bt = ix
                · have : is_ascii_whitespace (byteAt s (ix - 1)) = true := ws_of_wsnn hc.2.1
                  rw [← hbtix] at this
                  rw [h3a] at this
                  exact Bool.noConfusion this
                · by_cases hbtix1 : bt = ix - 1
                  · have : is_ascii_whitespace (byteAt s (ix - 2)) = true := ws_of_wsnn hc.2.2
                    have hix2 : ix - 2 = bt - 1 := by omega
                    rw [hix2, h3a] at this
                    exact Bool.noConfusion this
                  · omega
            refine ⟨if bt < ix then [⟨bt, ix, ItemBody.Text⟩] else [],
              Tree.items_append_text t bt ix, ?_, ?_⟩
            · intro it hit
              by_cases hbt : bt < ix
              · rw [if_pos hbt] at hit
                simp only [List.mem_singleton] at hit
                subst hit
                exact ⟨fun rem o c hbody => ItemBody.noConfusion hbody,
                  fun hcond => absurd ⟨hcond.2.1, hcond.2.2.1, hcond.2.2.2⟩ hS2⟩
              · rw [if_neg hbt] at hit
                exact absurd hit (List.not_mem_nil it)
            · exact ⟨rfl, by rw [if_neg hS1, if_neg hS2]⟩
      case neg =>
        rw [if_neg hnl]
        by_cases hesc : byteAt s ix = 92 ∧ ix + 1 < s.length ∧
            is_ascii_punctuation (byteAt s (ix + 1)) = true
        case pos =>
          rw [if_pos hesc]
          have hskip : findNl s ix = findNl s (ix + 2) := by
            apply findNl_skip_range
            intro j hj1 hj2
            by_cases hj : j = ix
            · rw [hj, hesc.1]; simp
            · have hj' : j = ix + 1 := by omega
              rw [hj']; exact punct_not_nl hesc.2.2
          rw [hskip]
          refine lineOutSpec_step s start (findNl s (ix + 2)) t _
            ((if bt < ix then [⟨bt, ix, ItemBody.Text⟩] else []) ++
              [⟨ix, ix + 1, ItemBody.Backslash⟩])
            ?_ ?_ _ (ih _ (ix + 1) (ix + 2) (by omega) (by omega) (by omega) (by omega) ?_)
          · rw [Tree.items_append, Tree.items_append_text, List.append_assoc]
          · intro it hit
            rcases List.mem_append.mp hit with hmem | hmem
            · by_cases hbt : bt < ix
              · rw [if_pos hbt] at hmem
                simp only [List.mem_singleton] at hmem
                subst hmem
                refine ⟨fun rem o c hbody => ItemBody.noConfusion hbody, ?_⟩
                cases hfd : findNl s (ix + 2) with
                | none => trivial
                | some nl =>
                  intro hcond
                  have hle2 := (findNl_some s (ix + 2) nl hfd).1
                  exact stop_le_trim s nl hcond.2.2.1 hcond.2.2.2 (by omega) ix ix
                    (Or.inr rfl) (by rw [hesc.1]; rfl) (by omega)
              · rw [if_neg hbt] at hmem
                exact absurd hmem (List.not_mem_nil it)
            · simp only [List.mem_singleton] at hmem
              subst hmem
              refine ⟨fun rem o c hbody => ItemBody.noConfusion hbody, ?_⟩
              cases hfd : findNl s (ix + 2) with
              | none => trivial
              | some nl =>
                intro hcond
                have hle2 := (findNl_some s (ix + 2) nl hfd).1
                exact stop_le_trim s nl hcond.2.2.1 hcond.2.2.2 (by omega) (ix + 1) ix
                  (Or.inl rfl) (by rw [hesc.1]; rfl) (by omega)
          · refine Or.inr ⟨?_, fun _ => by omega⟩
            rw [show ix + 1 - 1 = ix from rfl, hesc.1]
            rfl
        case neg =>
          rw [if_neg hesc]
          by_cases hrun : byteAt s ix = 42 ∨ byteAt s ix = 95
          case pos =>
            rw [if_pos hrun]
            have hwsb : is_ascii_whitespace (byteAt s ix) = false := by
              rcases hrun with h | h <;> rw [h] <;> rfl
            have hwsnnb : is_ascii_whitespace_no_nl (byteAt s ix) = false := by
              rcases hrun with h | h <;> rw [h] <;> rfl
            have hbytes : ∀ j, ix ≤ j →
                j < ix + (1 + scan_ch_repeat (s.drop (ix + 1)) (byteAt s ix)) →
                byteAt s j = byteAt s ix := by
              intro j hj1 hj2
              by_cases hj : j = ix
              · rw [hj]
              · have hk : j - (ix + 1) < scan_ch_repeat (s.drop (ix + 1)) (byteAt s ix) := by
                  omega
                have hsp := scan_ch_repeat_spec (byteAt s ix) (s.drop (ix + 1)) (j - (ix + 1)) hk
                rw [show (List.drop (ix + 1) s).getD (j - (ix + 1)) 0 =
                  byteAt (s.drop (ix + 1)) (j - (ix + 1)) from rfl, byteAt_drop,
                  show ix + 1 + (j - (ix + 1)) = j from by omega] at hsp
                exact hsp
            have hlen2 : ix + (1 + scan_ch_repeat (s.drop (ix + 1)) (byteAt s ix)) ≤ s.length := by
              have := scan_ch_repeat_le (byteAt s ix) (s.drop (ix + 1))
              rw [List.length_drop] at this
              omega
            have hskip : findNl s ix =
                findNl s (ix + (1 + scan_ch_repeat (s.drop (ix + 1)) (byteAt s ix))) := by
              apply findNl_skip_range
              intro j hj1 hj2
              rw [hbytes j hj1 hj2]
              rcases hrun with h | h <;> rw [h] <;> simp
            rw [hskip]
            refine lineOutSpec_step s start _ t _
              ((if bt < ix then [⟨bt, ix, ItemBody.Text⟩] else []) ++
                (List.range (1 + scan_ch_repeat (s.drop (ix + 1)) (byteAt s ix))).map
                  (fun i => ⟨ix + i, ix + i + 1,
                    ItemBody.Inline ((1 + scan_ch_repeat (s.drop (ix + 1)) (byteAt s ix)) - i)
                      (decide (ix + (1 + scan_ch_repeat (s.drop (ix + 1)) (byteAt s ix)) < s.length) &&
                        !is_ascii_whitespace (byteAt s (ix + (1 + scan_ch_repeat (s.drop (ix + 1)) (byteAt s ix)))))
                      (decide (start < ix) && !is_ascii_whitespace (byteAt s (ix - 1)))⟩))
              ?_ ?_ _ (ih _ (ix + (1 + scan_ch_repeat (s.drop (ix + 1)) (byteAt s ix)))
                (ix + (1 + scan_ch_repeat (s.drop (ix + 1)) (byteAt s ix)))
                (by omega) hlen2 (by omega) (by omega) ?_)
            · rw [Tree.items_appendInlineRun, Tree.items_append_text, List.append_assoc]
            · intro it hit
              rcases List.mem_append.mp hit with hmem | hmem
              · by_cases hbt : bt < ix
                · rw [if_pos hbt] at hmem
                  simp only [List.mem_singleton] at hmem
                  subst hmem
                  refine ⟨fun rem o c hbody => ItemBody.noConfusion hbody, ?_⟩
                  cases hfd : findNl s (ix + (1 + scan_ch_repeat (s.drop (ix + 1)) (byteAt s ix))) with
                  | none => trivial
                  | some nl =>
                    intro hcond
                    have hle2 := (findNl_some s _ nl hfd).1
                    exact stop_le_trim s nl hcond.2.2.1 hcond.2.2.2 (by omega) ix ix
                      (Or.inr rfl) hwsnnb (by omega)
                · rw [if_neg hbt] at hmem
                  exact absurd hmem (List.not_mem_nil it)
              · rcases List.mem_map.mp hmem with ⟨i, hiRange, hEq⟩
                have hi : i < 1 + scan_ch_repeat (s.drop (ix + 1)) (byteAt s ix) :=
                  List.mem_range.mp hiRange
                subst hEq
                constructor
                · intro rem o c hbody
                  injection hbody with hb1 hb2 hb3
                  refine ⟨ix, 1 + scan_ch_repeat (s.drop (ix + 1)) (byteAt s ix),
                    ?_, ?_, ?_, rfl, hbytes, hrun, ?_, ?_⟩
                  · show ix ≤ ix + i
                    omega
                  · show ix + i < ix + (1 + scan_ch_repeat (s.drop (ix + 1)) (byteAt s ix))
                    omega
                  · show ix + i + rem = ix + (1 + scan_ch_repeat (s.drop (ix + 1)) (byteAt s ix))
                    omega
                  · rw [← hb2]
                  · rw [← hb3]
                · cases hfd : findNl s (ix + (1 + scan_ch_repeat (s.drop (ix + 1)) (byteAt s ix))) with
                  | none => trivial
                  | some nl =>
                    intro hcond
                    have hle2 := (findNl_some s _ nl hfd).1
                    have hwj : is_ascii_whitespace_no_nl (byteAt s (ix + i)) = false := by
                      rw [hbytes (ix + i) (by omega) (by omega)]
                      exact hwsnnb
                    exact stop_le_trim s nl hcond.2.2.1 hcond.2.2.2 (by omega)
                      (ix + i + 1) (ix + i) (Or.inl rfl) hwj (by omega)
            · refine Or.inr ⟨?_, ?_⟩
              · rw [show ix + (1 + scan_ch_repeat (s.drop (ix + 1)) (byteAt s ix)) - 1 =
                  ix + (scan_ch_repeat (s.drop (ix + 1)) (byteAt s ix)) from by omega,
                  hbytes _ (by omega) (by omega)]
                exact hwsb
              · intro h92
                exfalso
                rw [show ix + (1 + scan_ch_repeat (s.drop (ix + 1)) (byteAt s ix)) - 1 =
                  ix + (scan_ch_repeat (s.drop (ix + 1)) (byteAt s ix)) from by omega,
                  hbytes _ (by omega) (by omega)] at h92
                rcases hrun with h | h <;> rw [h] at h92 <;> simp at h92
          case neg =>
            rw [if_neg hrun]
            by_cases h96 : byteAt s ix = 96
            case pos =>
              rw [if_pos h96]
              have hbytes : ∀ j, ix ≤ j →
                  j < ix + (1 + scan_ch_repeat (s.drop (ix + 1)) 96) →
                  byteAt s j = 96 := by
                intro j hj1 hj2
                by_cases hj : j = ix
                · rw [hj, h96]
                · have hk : j - (ix + 1) < scan_ch_repeat (s.drop (ix + 1)) 96 := by omega
                  have hsp := scan_ch_repeat_spec 96 (s.drop (ix + 1)) (j - (ix + 1)) hk
                  rw [show (List.drop (ix + 1) s).getD (j - (ix + 1)) 0 =
                    byteAt (s.drop (ix + 1)) (j - (ix + 1)) from rfl, byteAt_drop,
                    show ix + 1 + (j - (ix + 1)) = j from by omega] at hsp
                  exact hsp
              have hlen2 : ix + (1 + scan_ch_repeat (s.drop (ix + 1)) 96) ≤ s.length := by
                have := scan_ch_repeat_le 96 (s.drop (ix + 1))
                rw [List.length_drop] at this
                omega
              have hskip : findNl s ix =
                  findNl s (ix + (1 + scan_ch_repeat (s.drop (ix + 1)) 96)) := by
                apply findNl_skip_range
                intro j hj1 hj2
                rw [hbytes j hj1 hj2]
                simp
              rw [hskip]
              refine lineOutSpec_step s start _ t _
                ((if bt < ix then [⟨bt, ix, ItemBody.Text⟩] else []) ++
                  [⟨ix, ix + (1 + scan_ch_repeat (s.drop (ix + 1)) 96),
                    ItemBody.MaybeCode (1 + scan_ch_repeat (s.drop (ix + 1)) 96)⟩])
                ?_ ?_ _ (ih _ (ix + (1 + scan_ch_repeat (s.drop (ix + 1)) 96))
                  (ix + (1 + scan_ch_repeat (s.drop (ix + 1)) 96))
                  (by omega) hlen2 (by omega) (by omega) ?_)
              · rw [Tree.items_append, Tree.items_append_text, List.append_assoc]
              · intro it hit
                rcases List.mem_append.mp hit with hmem | hmem
                · by_cases hbt : bt < ix
                  · rw [if_pos hbt] at hmem
                    simp only [List.mem_singleton] at hmem
                    subst hmem
                    refine ⟨fun rem o c hbody => ItemBody.noConfusion hbody, ?_⟩
                    cases hfd : findNl s (ix + (1 + scan_ch_repeat (s.drop (ix + 1)) 96)) with
                    | none => trivial
                    | some nl =>
                      intro hcond
                      have hle2 := (findNl_some s _ nl hfd).1
                      exact stop_le_trim s nl hcond.2.2.1 hcond.2.2.2 (by omega) ix ix
                        (Or.inr rfl) (by rw [h96]; rfl) (by omega)
                  · rw [if_neg hbt] at hmem
                    exact absurd hmem (List.not_mem_nil it)
                · simp only [List.mem_singleton] at hmem
                  subst hmem
                  refine ⟨fun rem o c hbody => ItemBody.noConfusion hbody, ?_⟩
                  cases hfd : findNl s (ix + (1 + scan_ch_repeat (s.drop (ix + 1)) 96)) with
                  | none => trivial
                  | some nl =>
                    intro hcond
                    have hle2 := (findNl_some s _ nl hfd).1
                    have hwj : is_ascii_whitespace_no_nl
                        (byteAt s (ix + scan_ch_repeat (s.drop (ix + 1)) 96)) = false := by
                      rw [hbytes _ (by omega) (by omega)]
                      rfl
                    exact stop_le_trim s nl hcond.2.2.1 hcond.2.2.2 (by omega)
                      (ix + (1 + scan_ch_repeat (s.drop (ix + 1)) 96))
                      (ix + scan_ch_repeat (s.drop (ix + 1)) 96)
                      (Or.inl (by omega)) hwj (by omega)
              · refine Or.inr ⟨?_, ?_⟩
                · rw [show ix + (1 + scan_ch_repeat (s.drop (ix + 1)) 96) - 1 =
                    ix + scan_ch_repeat (s.drop (ix + 1)) 96 from by omega,
                    hbytes _ (by omega) (by omega)]
                  rfl
                · intro h92
                  rw [show ix + (1 + scan_ch_repeat (s.drop (ix + 1)) 96) - 1 =
                    ix + scan_ch_repeat (s.drop (ix + 1)) 96 from by omega,
                    hbytes _ (by omega) (by omega)] at h92
                  exact absurd h92 (by decide)
            case neg =>
              rw [if_neg h96]
              by_cases h60 : byteAt s ix = 60
              case pos =>
                rw [if_pos h60]
                have hskip : findNl s ix = findNl s (ix + 1) := by
                  apply findNl_skip
                  rw [h60]
                  simp
                rw [hskip]
                refine lineOutSpec_step s start _ t _
                  ((if bt < ix then [⟨bt, ix, ItemBody.Text⟩] else []) ++
                    [⟨ix, ix + 1, ItemBody.MaybeHtml⟩])
                  ?_ ?_ _ (ih _ (ix + 1) (ix + 1) (by omega) (by omega) (by omega) (by omega) ?_)
                · rw [Tree.items_append, Tree.items_append_text, List.append_assoc]
                · intro it hit
                  rcases List.mem_append.mp hit with hmem | hmem
                  · by_cases hbt : bt < ix
                    · rw [if_pos hbt] at hmem
                      simp only [List.mem_singleton] at hmem
                      subst hmem
                      refine ⟨fun rem o c hbody => ItemBody.noConfusion hbody, ?_⟩
                      cases hfd : findNl s (ix + 1) with
                      | none => trivial
                      | some nl =>
                        intro hcond
                        have hle2 := (findNl_some s _ nl hfd).1
                        exact stop_le_trim s nl hcond.2.2.1 hcond.2.2.2 (by omega) ix ix
                          (Or.inr rfl) (by rw [h60]; rfl) (by omega)
                    · rw [if_neg hbt] at hmem
                      exact absurd hmem (List.not_mem_nil it)
                  · simp only [List.mem_singleton] at hmem
                    subst hmem
                    refine ⟨fun rem o c hbody => ItemBody.noConfusion hbody, ?_⟩
                    cases hfd : findNl s (ix + 1) with
                    | none => trivial
                    | some nl =>
                      intro hcond
                      have hle2 := (findNl_some s _ nl hfd).1
                      exact stop_le_trim s nl hcond.2.2.1 hcond.2.2.2 (by omega) (ix + 1) ix
                        (Or.inl rfl) (by rw [h60]; rfl) (by omega)
                · refine Or.inr ⟨?_, ?_⟩
                  · rw [show ix + 1 - 1 = ix from by omega, h60]
                    rfl
                  · intro h92
                    rw [show ix + 1 - 1 = ix from by omega, h60] at h92
                    exact absurd h92 (by decide)
              case neg =>
                rw [if_neg h60]
                by_cases h91 : byteAt s ix = 91
                case pos =>
                  rw [if_pos h91]
                  have hskip : findNl s ix = findNl s (ix + 1) := by
                    apply findNl_skip
                    rw [h91]
                    simp
                  rw [hskip]
                  refine lineOutSpec_step s start _ t _
                    ((if bt < ix then [⟨bt, ix, ItemBody.Text⟩] else []) ++
                      [⟨ix, ix + 1, ItemBody.MaybeLinkOpen⟩])
                    ?_ ?_ _ (ih _ (ix + 1) (ix + 1) (by omega) (by omega) (by omega) (by omega) ?_)
                  · rw [Tree.items_append, Tree.items_append_text, List.append_assoc]
                  · intro it hit
                    rcases List.mem_append.mp hit with hmem | hmem
                    · by_cases hbt : bt < ix
                      · rw [if_pos hbt] at hmem
                        simp only [List.mem_singleton] at hmem
                        subst hmem
                        refine ⟨fun rem o c hbody => ItemBody.noConfusion hbody, ?_⟩
                        cases hfd : findNl s (ix + 1) with
                        | none => trivial
                        | some nl =>
                          intro hcond
                          have hle2 := (findNl_some s _ nl hfd).1
                          exact stop_le_trim s nl hcond.2.2.1 hcond.2.2.2 (by omega) ix ix
                            (Or.inr rfl) (by rw [h91]; rfl) (by omega)
                      · rw [if_neg hbt] at hmem
                        exact absurd hmem (List.not_mem_nil it)
                    · simp only [List.mem_singleton] at hmem
                      subst hmem
                      refine ⟨fun rem o c hbody => ItemBody.noConfusion hbody, ?_⟩
                      cases hfd : findNl s (ix + 1) with
                      | none => trivial
                      | some nl =>
                        intro hcond
                        have hle2 := (findNl_some s _ nl hfd).1
                        exact stop_le_trim s nl hcond.2.2.1 hcond.2.2.2 (by omega) (ix + 1) ix
                          (Or.inl rfl) (by rw [h91]; rfl) (by omega)
                  · refine Or.inr ⟨?_, ?_⟩
                    · rw [show ix + 1 - 1 = ix from by omega, h91]
                      rfl
                    · intro h92
                      rw [show ix + 1 - 1 = ix from by omega, h91] at h92
                      exact absurd h92 (by decide)
                case neg =>
                  rw [if_neg h91]
                  by_cases h93 : byteAt s ix = 93
                  case pos =>
                    rw [if_pos h93]
                    have hskip : findNl s ix = findNl s (ix + 1) := by
                      apply findNl_skip
                      rw [h93]
                      simp
                    rw [hskip]
                    refine lineOutSpec_step s start _ t _
                      ((if bt < ix then [⟨bt, ix, ItemBody.Text⟩] else []) ++
                        [⟨ix, ix + 1, ItemBody.MaybeLinkClose⟩])
                      ?_ ?_ _ (ih _ (ix + 1) (ix + 1) (by omega) (by omega) (by omega) (by omega) ?_)
                    · rw [Tree.items_append, Tree.items_append_text, List.append_assoc]
                    · intro it hit
                      rcases List.mem_append.mp hit with hmem | hmem
                      · by_cases hbt : bt < ix
                        · rw [if_pos hbt] at hmem
                          simp only [List.mem_singleton] at hmem
                          subst hmem
                          refine ⟨fun rem o c hbody => ItemBody.noConfusion hbody, ?_⟩
                          cases hfd : findNl s (ix + 1) with
                          | none => trivial
                          | some nl =>
                            intro hcond
                            have hle2 := (findNl_some s _ nl hfd).1
                            exact stop_le_trim s nl hcond.2.2.1 hcond.2.2.2 (by omega) ix ix
                              (Or.inr rfl) (by rw [h93]; rfl) (by omega)
                        · rw [if_neg hbt] at hmem
                          exact absurd hmem (List.not_mem_nil it)
                      · simp only [List.mem_singleton] at hmem
                        subst hmem
                        refine ⟨fun rem o c hbody => ItemBody.noConfusion hbody, ?_⟩
                        cases hfd : findNl s (ix + 1) with
                        | none => trivial
                        | some nl =>
                          intro hcond
                          have hle2 := (findNl_some s _ nl hfd).1
                          exact stop_le_trim s nl hcond.2.2.1 hcond.2.2.2 (by omega) (ix + 1) ix
                            (Or.inl rfl) (by rw [h93]; rfl) (by omega)
                    · refine Or.inr ⟨?_, ?_⟩
                      · rw [show ix + 1 - 1 = ix from by omega, h93]
                        rfl
                      · intro h92
                        rw [show ix + 1 - 1 = ix from by omega, h93] at h92
                        exact absurd h92 (by decide)
                  case neg =>
                    rw [if_neg h93]
                    have hskip : findNl s ix = findNl s (ix + 1) := findNl_skip s ix hnl
                    rw [hskip]
                    refine ih t bt (ix + 1) (by omega) (by omega) h1 (by omega) ?_
                    rcases h3 with h | hh
                    · exact Or.inl h
                    · exact Or.inr ⟨hh.1, fun hb92 => by have := hh.2 hb92; omega⟩


/-- C2: every `Inline` marker appended by the line scanner belongs to a
`*` or `_` delimiter run; its `can_open` flag is set exactly when the run
is not at the end of the input and the byte after the run is not ASCII
whitespace, and its `can_close` flag is set exactly when the run does not
begin at the scan start and the byte before the run is not ASCII
whitespace. -/
theorem c2_inline_flanking (s : Bytes) (t : Tree) (ix : Nat)
    (hix : ix ≤ s.length) :
    ∃ A, (parse_line t s ix).1.items = t.items ++ A ∧
      ∀ it ∈ A, inlineRunProp s ix it := by
  obtain ⟨A, hA, hprop, _⟩ := parse_line_go_master s ix (s.length + 1) t ix ix
    (by omega) hix (le_refl ix) (le_refl ix) (Or.inl rfl)
  exact ⟨A, hA, fun it hit => (hprop it hit).1⟩

theorem c2_inline_flanking_witness :
    (0 : Nat) ≤ ([97, 42, 98] : Bytes).length ∧
    ∃ A, (parse_line Tree.new [97, 42, 98] 0).1.items = Tree.new.items ++ A ∧
      ∀ it ∈ A, inlineRunProp [97, 42, 98] 0 it :=
  ⟨by decide, c2_inline_flanking [97, 42, 98] Tree.new 0 (by decide)⟩

/-- C4: the break item the line scanner returns at the line ending is a
`HardBreak` covering the backslash and the newline when a backslash
immediately precedes the newline; otherwise, when at least two trailing
non-newline ASCII whitespace bytes precede the newline, a `HardBreak`
starting at the whitespace-backtrack point, with every appended item
trimmed to end at or before that point; otherwise a `SoftBreak`. -/
theorem c4_break_classification (s : Bytes) (t : Tree) (ix : Nat)
    (hix : ix ≤ s.length) :
    lineResultSpec s ix (findNl s ix) (parse_line t s ix).2.1 (parse_line t s ix).2.2 ∧
    ∃ A, (parse_line t s ix).1.items = t.items ++ A ∧
      ∀ it ∈ A, wsCaseBound s ix (findNl s ix) it := by
  obtain ⟨A, hA, hprop, hres⟩ := parse_line_go_master s ix (s.length + 1) t ix ix
    (by omega) hix (le_refl ix) (le_refl ix) (Or.inl rfl)
  exact ⟨hres, A, hA, fun it hit => (hprop it hit).2⟩

theorem c4_break_classification_witness :
    (0 : Nat) ≤ ([97, 32, 32, 10] : Bytes).length ∧
    (lineResultSpec [97, 32, 32, 10] 0 (findNl [97, 32, 32, 10] 0)
      (parse_line Tree.new [97, 32, 32, 10] 0).2.1
      (parse_line Tree.new [97, 32, 32, 10] 0).2.2 ∧
    ∃ A, (parse_line Tree.new [97, 32, 32, 10] 0).1.items = Tree.new.items ++ A ∧
      ∀ it ∈ A, wsCaseBound [97, 32, 32, 10] 0 (findNl [97, 32, 32, 10] 0) it) :=
  ⟨by decide, c4_break_classification [97, 32, 32, 10] Tree.new 0 (by decide)⟩


end MD
